import Mathlib

/-!
Shallow embedding of `vrclogunrotate` (`src/main.rs`), the collection engine of a
tool that mirrors VRChat's rotating log files into a date-partitioned tree of
hard links.  Byte buffers are `List Nat` (each element a byte value), paths are
`List String` (path components), and the filesystem is an explicit `World`
record threaded through the operations.  Machine integers of the source
(`i32`, `u32`) appear as `Nat` with explicit range checks where the source's
parsing can fail.
-/

set_option autoImplicit false

namespace VRCLog

/-! ## Date-header pattern (classifier regex)

The source compiles the byte regex
`(?m)^(?P<yyyy>\d{4})\.(?P<MM>\d{2})\.(?P<dd>\d{2}) (?:\d{2}):(?:\d{2}):(?:\d{2}) `
and searches the 30-byte header buffer for its leftmost match.  We embed the
(alternation-free) pattern as a token template of length 20 and the multiline
`^` anchor as `lineStart`: position 0 or the position right after a `\n` byte
(10).  Out-of-range reads yield the byte 0, which matches no token, so a match
site always lies entirely inside the buffer. -/

/-- ASCII decimal digit byte, the byte-regex class `\d`. -/
def isDigitByte (b : Nat) : Bool := 48 ≤ b && b ≤ 57

deriving instance DecidableEq for Except

/-- Byte of `buf` at index `i`; 0 when out of range. -/
def byteAt (buf : List Nat) (i : Nat) : Nat := buf.getD i 0

/-- One token of the byte pattern: a digit class or a literal byte. -/
inductive Tok where
  | digit : Tok
  | lit : Nat → Tok
deriving DecidableEq

/-- Whether byte `b` matches token `t`. -/
def tokMatch (t : Tok) (b : Nat) : Bool :=
  match t with
  | .digit => isDigitByte b
  | .lit c => b == c

/-- The 20-token template of the date-header regex body:
`\d{4} . \d{2} . \d{2} SP \d{2} : \d{2} : \d{2} SP`
(46 = `.`, 32 = space, 58 = `:`). -/
def headerTemplate : List Tok :=
  [.digit, .digit, .digit, .digit, .lit 46,
   .digit, .digit, .lit 46,
   .digit, .digit, .lit 32,
   .digit, .digit, .lit 58,
   .digit, .digit, .lit 58,
   .digit, .digit, .lit 32]

/-- The pattern body matches in `buf` at position `p`. -/
def patternAt (buf : List Nat) (p : Nat) : Bool :=
  (List.range headerTemplate.length).all fun k =>
    tokMatch (headerTemplate.getD k (.lit 0)) (byteAt buf (p + k))

/-- The multiline anchor `(?m)^`: start of the haystack, or just after a
newline byte (10). -/
def lineStart (buf : List Nat) (p : Nat) : Bool :=
  p == 0 || byteAt buf (p - 1) == 10

/-- The bytes of an ASCII-digit capture group: the slice of `buf` starting at
`start` of length `len` (`captures.name(..).as_bytes()` when the matched
digits are ASCII). -/
def captureBytes (buf : List Nat) (start len : Nat) : List Nat :=
  (buf.drop start).take len

/-! ### Unicode `\d`

The regex crate compiles `\d` in its default Unicode mode, also for
`regex::bytes::Regex`: it matches the UTF-8 encoding of any character of the
Unicode general category Nd (decimal number), not only ASCII `0-9`.  We embed
the category as its code-point range table (UCD `DerivedGeneralCategory`,
category Nd) and a UTF-8 decoder, so that a `\d` of the header pattern can
consume a multi-byte sequence such as fullwidth `２` (U+FF12, bytes
`EF BC 92`). -/

/-- Code-point ranges of the Unicode general category Nd. -/
def ndRanges : List (Nat × Nat) :=
  [(0x30, 0x39), (0x660, 0x669), (0x6F0, 0x6F9), (0x7C0, 0x7C9),
   (0x966, 0x96F), (0x9E6, 0x9EF), (0xA66, 0xA6F), (0xAE6, 0xAEF),
   (0xB66, 0xB6F), (0xBE6, 0xBEF), (0xC66, 0xC6F), (0xCE6, 0xCEF),
   (0xD66, 0xD6F), (0xDE6, 0xDEF), (0xE50, 0xE59), (0xED0, 0xED9),
   (0xF20, 0xF29), (0x1040, 0x1049), (0x1090, 0x1099), (0x17E0, 0x17E9),
   (0x1810, 0x1819), (0x1946, 0x194F), (0x19D0, 0x19D9), (0x1A80, 0x1A89),
   (0x1A90, 0x1A99), (0x1B50, 0x1B59), (0x1BB0, 0x1BB9), (0x1C40, 0x1C49),
   (0x1C50, 0x1C59), (0xA620, 0xA629), (0xA8D0, 0xA8D9), (0xA900, 0xA909),
   (0xA9D0, 0xA9D9), (0xA9F0, 0xA9F9), (0xAA50, 0xAA59), (0xABF0, 0xABF9),
   (0xFF10, 0xFF19), (0x104A0, 0x104A9), (0x10D30, 0x10D39),
   (0x11066, 0x1106F), (0x110F0, 0x110F9), (0x11136, 0x1113F),
   (0x111D0, 0x111D9), (0x112F0, 0x112F9), (0x11450, 0x11459),
   (0x114D0, 0x114D9), (0x11650, 0x11659), (0x116C0, 0x116C9),
   (0x11730, 0x11739), (0x118E0, 0x118E9), (0x11950, 0x11959),
   (0x11C50, 0x11C59), (0x11D50, 0x11D59), (0x11DA0, 0x11DA9),
   (0x11F50, 0x11F59), (0x16A60, 0x16A69), (0x16AC0, 0x16AC9),
   (0x16B50, 0x16B59), (0x1D7CE, 0x1D7FF), (0x1E140, 0x1E149),
   (0x1E2F0, 0x1E2F9), (0x1E4F0, 0x1E4F9), (0x1E950, 0x1E959),
   (0x1FBF0, 0x1FBF9)]

/-- Membership of a code point in the Nd category. -/
def isNdCode (n : Nat) : Bool :=
  ndRanges.any fun r => r.1 ≤ n && n ≤ r.2

/-- Decode one UTF-8-encoded scalar value from the front of a byte list:
the code point and the number of bytes consumed; `none` on invalid UTF-8
(RFC 3629 table, rejecting overlongs and surrogates). -/
def utf8DecodeChar : List Nat → Option (Nat × Nat)
  | [] => none
  | b0 :: rest =>
    if b0 < 128 then some (b0, 1)
    else if 194 ≤ b0 && b0 ≤ 223 then
      match rest with
      | [] => none
      | b1 :: _ =>
        if 128 ≤ b1 && b1 ≤ 191 then
          some ((b0 - 192) * 64 + (b1 - 128), 2)
        else none
    else if 224 ≤ b0 && b0 ≤ 239 then
      match rest with
      | b1 :: b2 :: _ =>
        if (if b0 == 224 then 160 else 128) ≤ b1 &&
            b1 ≤ (if b0 == 237 then 159 else 191) &&
            128 ≤ b2 && b2 ≤ 191 then
          some ((b0 - 224) * 4096 + (b1 - 128) * 64 + (b2 - 128), 3)
        else none
      | _ => none
    else if 240 ≤ b0 && b0 ≤ 244 then
      match rest with
      | b1 :: b2 :: b3 :: _ =>
        if (if b0 == 240 then 144 else 128) ≤ b1 &&
            b1 ≤ (if b0 == 244 then 143 else 191) &&
            128 ≤ b2 && b2 ≤ 191 && 128 ≤ b3 && b3 ≤ 191 then
          some ((b0 - 240) * 262144 + (b1 - 128) * 4096 +
            (b2 - 128) * 64 + (b3 - 128), 4)
        else none
      | _ => none
    else none

/-- Regex `\d` over bytes in Unicode mode: consume the UTF-8 encoding of one
Nd character, returning (consumed bytes, remainder). -/
def ndChar (bs : List Nat) : Option (List Nat × List Nat) :=
  match utf8DecodeChar bs with
  | some (cp, k) => if isNdCode cp then some (bs.take k, bs.drop k) else none
  | none => none

/-- Regex `\d{n}` over bytes: consume `n` Nd characters, returning
(consumed bytes, remainder). -/
def ndGroup : Nat → List Nat → Option (List Nat × List Nat)
  | 0, bs => some ([], bs)
  | n + 1, bs =>
    (ndChar bs).bind fun cb =>
      (ndGroup n cb.2).map fun gb => (cb.1 ++ gb.1, gb.2)

/-- One literal byte of the pattern. -/
def litByte (b : Nat) : List Nat → Option (List Nat)
  | [] => none
  | b0 :: rest => if b0 = b then some rest else none

/-- Match of the header regex body
`(\d{4})\.(\d{2})\.(\d{2}) (?:\d{2}):(?:\d{2}):(?:\d{2}) ` starting at
the front of `bs`: the three captured groups (as byte slices) and the
unconsumed remainder. -/
def matchHeader (bs : List Nat) :
    Option (List Nat × List Nat × List Nat × List Nat) :=
  (ndGroup 4 bs).bind fun g1 =>
  (litByte 46 g1.2).bind fun bs =>
  (ndGroup 2 bs).bind fun g2 =>
  (litByte 46 g2.2).bind fun bs =>
  (ndGroup 2 bs).bind fun g3 =>
  (litByte 32 g3.2).bind fun bs =>
  (ndGroup 2 bs).bind fun h1 =>
  (litByte 58 h1.2).bind fun bs =>
  (ndGroup 2 bs).bind fun h2 =>
  (litByte 58 h2.2).bind fun bs =>
  (ndGroup 2 bs).bind fun h3 =>
  (litByte 32 h3.2).map fun bs => (g1.1, g2.1, g3.1, bs)

/-- Leftmost match of the multiline-anchored pattern (`Regex::captures`
returns the leftmost match, and the `(?m)^` anchor restricts candidate
positions to line starts): its start position and the three captures. -/
def findMatchU (buf : List Nat) :
    Option (Nat × List Nat × List Nat × List Nat) :=
  ((List.range buf.length).find? fun p =>
      lineStart buf p && (matchHeader (buf.drop p)).isSome).bind fun p =>
    (matchHeader (buf.drop p)).map fun g => (p, g.1, g.2.1, g.2.2.1)

/-- `u32::MAX`, the overflow bound of `str::parse::<u32>` (month/day). -/
def u32Max : Nat := 4294967295

/-- `i32::MAX`, the overflow bound of `str::parse::<i32>` on a sign-free
string (year). -/
def i32Max : Nat := 2147483647

/-- Embedding of `std::str::from_utf8(bytes).expect(..).parse().expect(..)`
as used on a captured digit group: succeeds exactly on a nonempty all-digit
byte string whose value fits the integer type (the source's `parse` also
accepts a leading sign, which `\d`-captured input never contains); `none`
models either `expect` panicking. -/
def rustParseNat (maxVal : Nat) (bytes : List Nat) : Option Nat :=
  if bytes.isEmpty then none
  else if bytes.all isDigitByte then
    let v := bytes.foldl (fun a b => a * 10 + (b - 48)) 0
    if v ≤ maxVal then some v else none
  else none

/-- The numeric value of the `n` digit bytes of `buf` starting at `s`
(specification-side view of a captured group's value). -/
def digitsVal (buf : List Nat) (s n : Nat) : Nat :=
  ((List.range n).map fun k => byteAt buf (s + k)).foldl
    (fun a b => a * 10 + (b - 48)) 0

/-! ## Calendar dates (`chrono::NaiveDate`)

`NaiveDate::from_ymd` asserts its arguments form a real proleptic-Gregorian
date and panics otherwise.  Years parsed from `\d{4}` lie in `0..=9999`, well
inside chrono's representable year range, so validity here is exactly the
month/day check. -/

/-- Proleptic-Gregorian leap year. -/
def isLeapYear (y : Nat) : Bool :=
  (y % 4 == 0 && y % 100 != 0) || y % 400 == 0

/-- Days in month `m` of year `y`. -/
def daysInMonth (y m : Nat) : Nat :=
  if m == 2 then (if isLeapYear y then 29 else 28)
  else if m == 4 || m == 6 || m == 9 || m == 11 then 30
  else 31

/-- `NaiveDate::from_ymd` succeeds exactly on these triples (for the year
range reachable from a 4-digit capture). -/
def validYmd (y m d : Nat) : Bool :=
  1 ≤ m && m ≤ 12 && 1 ≤ d && d ≤ daysInMonth y m

/-- A calendar date as held by a `VRCLogfile` record.  The source stores a
`NaiveDate`; every date constructed by the classifier has a year in
`0..=9999`, so `Nat` fields suffice. -/
structure Date where
  year : Nat
  month : Nat
  day : Nat
deriving DecidableEq

/-! ## Classifier (`VRCLogfile::new`)

`VRCLogfile::new` opens the file read-only, reads exactly the first 30 bytes
(`read_exact` into a 30-byte buffer — a shorter file is an I/O error), runs
the header regex, and on a match parses the three captures and builds the
date.  We classify a byte content directly; the open step is modelled at the
`World` level below. -/

/-- Outcome of classifying one file content. -/
inductive ClassifyResult where
  | ioError : ClassifyResult
  | noRecord : ClassifyResult
  | record : Nat → Nat → Nat → ClassifyResult
  | panic : ClassifyResult
deriving DecidableEq

/-- Classification of a file's byte content, mirroring `VRCLogfile::new` after
a successful open: `ioError` is `read_exact` failing on a short file,
`noRecord` is `Ok(None)`, `record y m d` is `Ok(Some(..))` with that date, and
`panic` is a failing `expect` or a `NaiveDate::from_ymd` assertion. -/
def classify (content : List Nat) : ClassifyResult :=
  if content.length < 30 then .ioError
  else
    let buf := content.take 30
    match findMatchU buf with
    | none => .noRecord
    | some (_, g1, g2, g3) =>
      match rustParseNat i32Max g1, rustParseNat u32Max g2,
            rustParseNat u32Max g3 with
      | some y, some m, some d =>
        if validYmd y m d then .record y m d else .panic
      | _, _, _ => .panic

/-! ## Source scanner (`LocalLowVRChat::list_logfile_paths`)

The scanner reads the watched directory and keeps exactly the regular-file
entries whose (UTF-8) name fully matches `^output_log_\d{2}-\d{2}-\d{2}\.txt$`,
returning their full paths.  Reading an entry, or its file type, can fail; the
`collect::<Result<_>>` stops at the first such error.  We take the raw
directory listing — a list of per-entry read results — as input. -/

/-- A directory entry's type as reported by `DirEntry::file_type` (which does
not follow symbolic links). -/
inductive FileType where
  | file : FileType
  | dir : FileType
  | symlink : FileType
deriving DecidableEq

/-- A successfully read directory entry: its (UTF-8) file name and the result
of `DirEntry::file_type()`.  (A non-UTF-8 name is not representable as a Lean
`String`; `to_str` on such a name returns `None` and the entry is skipped —
the claims below quantify over strings, i.e. valid UTF-8 names.) -/
structure DirEntry where
  name : String
  ftype : Except String FileType

/-- Consume an expected literal character sequence from the front of the
input, returning the remainder (regex literal chunk). -/
def matchLits : List Char → List Char → Option (List Char)
  | [], cs => some cs
  | _ :: _, [] => none
  | l :: ls, c :: cs => if c = l then matchLits ls cs else none

/-- Unicode decimal digit character: the regex crate compiles `\d` in its
default Unicode mode, so it matches any character of category Nd, not only
ASCII digits. -/
def isNdChar (c : Char) : Bool := isNdCode c.toNat

/-- Consume two decimal digits from the front of the input (regex `\d{2}`,
Unicode digit class). -/
def digit2 : List Char → Option (List Char)
  | a :: b :: cs => if isNdChar a && isNdChar b then some cs else none
  | _ => none

/-- Full match of the filename regex `^output_log_\d{2}-\d{2}-\d{2}\.txt$`:
consume each regex chunk in order and require the whole string consumed (the
anchors make it a whole-string match; `\d` on ASCII file names is the decimal
digit class). -/
def isLogfileName (s : String) : Bool :=
  ((matchLits ['o','u','t','p','u','t','_','l','o','g','_'] s.toList).bind
      fun cs =>
    (digit2 cs).bind fun cs =>
    (matchLits ['-'] cs).bind fun cs =>
    (digit2 cs).bind fun cs =>
    (matchLits ['-'] cs).bind fun cs =>
    (digit2 cs).bind fun cs =>
    matchLits ['.','t','x','t'] cs) = some []

/-- `collect::<Result<Vec<_>, _>>`: the list of successes, or the first
error. -/
def collectResults {ε α : Type} : List (Except ε α) → Except ε (List α)
  | [] => .ok []
  | .error e :: _ => .error e
  | .ok a :: rest => (collectResults rest).map (a :: ·)

/-- The watched VRChat log directory. -/
structure LocalLowVRChat where
  vrchat_path : List String

/-- The body of the scanner's `filter_map` closure for one raw entry:
`none` drops the entry, `some (.error e)` propagates a read failure, and
`some (.ok path)` keeps a candidate path. -/
def LocalLowVRChat.scanEntry (v : LocalLowVRChat) (r : Except String DirEntry) :
    Option (Except String (List String)) :=
  match r with
  | .error e => some (.error e)
  | .ok de =>
    match de.ftype with
    | .error e => some (.error e)
    | .ok ft =>
      if ft = .file then
        if isLogfileName de.name then some (.ok (v.vrchat_path ++ [de.name]))
        else none
      else none

/-- `LocalLowVRChat::list_logfile_paths` over a raw directory listing. -/
def LocalLowVRChat.list_logfile_paths (v : LocalLowVRChat)
    (entries : List (Except String DirEntry)) : Except String (List (List String)) :=
  collectResults (entries.filterMap v.scanEntry)

/-! ## Filesystem world

`World` holds the hard-link namespace: `files` maps each existing file path to
its byte content (a hard link shares the content), and `dirs` is the set of
existing directories.  Every operation of the store only adds entries. -/

/-- Filesystem state threaded through the store and the step. -/
structure World where
  files : List (List String × List Nat)
  dirs : List (List String)
deriving DecidableEq

/-- Content of the file at `p`, if it exists. -/
def World.lookupFile (w : World) (p : List String) : Option (List Nat) :=
  (w.files.find? fun f => f.1 = p).map (·.2)

/-- `fs::create_dir_all`: ensure the directory exists (idempotent; ancestor
creation is immaterial to the claims and omitted). -/
def World.create_dir_all (w : World) (p : List String) : World :=
  if p ∈ w.dirs then w else { w with dirs := p :: w.dirs }

/-- Error kinds of `fs::hard_link` the model distinguishes: destination
already present, or source missing. -/
inductive FSError where
  | alreadyExists : FSError
  | notFound : FSError
deriving DecidableEq

/-- `fs::hard_link src dst`: fails with `AlreadyExists` if `dst` exists, with
`NotFound` if `src` does not, and otherwise adds a `dst` entry sharing `src`'s
content. -/
def World.hard_link (w : World) (src dst : List String) :
    World × Except FSError Unit :=
  if (w.lookupFile dst).isSome then (w, .error .alreadyExists)
  else
    match w.lookupFile src with
    | none => (w, .error .notFound)
    | some content => ({ w with files := (dst, content) :: w.files }, .ok ())

/-! ## Partitioned store (`UnrotateCollection`) -/

/-- A classified log file: path plus the date read from its header. -/
structure VRCLogfile where
  path : List String
  date : Date
deriving DecidableEq

/-- ASCII character of a decimal digit value. -/
def digitCharOf : Nat → Char
  | 0 => '0' | 1 => '1' | 2 => '2' | 3 => '3' | 4 => '4'
  | 5 => '5' | 6 => '6' | 7 => '7' | 8 => '8' | _ => '9'

/-- Decimal digits of `n`, most significant first, by repeated division;
`fuel` bounds the recursion (any `fuel ≥ n` is exact). -/
def decDigitsAux (fuel n : Nat) : List Nat :=
  match fuel with
  | 0 => []
  | fuel + 1 => if n == 0 then [] else decDigitsAux fuel (n / 10) ++ [n % 10]

/-- Decimal digit list of `n` (`[0]` for 0). -/
def decDigits (n : Nat) : List Nat :=
  if n == 0 then [0] else decDigitsAux n n

/-- Rust's `format!("{:0w}", n)` for a nonnegative integer: the decimal
representation of `n`, left-padded with `'0'` to width `w`. -/
def fmtZeroPad (w n : Nat) : String :=
  let ds := (decDigits n).map digitCharOf
  String.mk (List.replicate (w - ds.length) '0' ++ ds)

/-- The destination collection directory. -/
structure UnrotateCollection where
  collection_path : List String

/-- `UnrotateCollection::partition_folder_path`:
`collection_path/{:04}-{:02}/{:02}` from year, month, day. -/
def UnrotateCollection.partition_folder_path (c : UnrotateCollection)
    (date : Date) : List String :=
  c.collection_path ++
    [fmtZeroPad 4 date.year ++ "-" ++ fmtZeroPad 2 date.month,
     fmtZeroPad 2 date.day]

/-- The destination path of a log file's hard link: the partition directory
plus the source file's name (`logfile.path.file_name().unwrap()`; candidate
paths are nonempty, ending in the matched file name, so the `unwrap` is
modelled by `getLastD`). -/
def UnrotateCollection.linkDest (c : UnrotateCollection) (logfile : VRCLogfile) :
    List String :=
  c.partition_folder_path logfile.date ++ [logfile.path.getLastD ""]

/-- `UnrotateCollection::create_link`: ensure the partition directory, then
hard-link the source there; an `AlreadyExists` failure is mapped to `Ok`. -/
def UnrotateCollection.create_link (c : UnrotateCollection) (w : World)
    (logfile : VRCLogfile) : World × Except FSError Unit :=
  let pdir := c.partition_folder_path logfile.date
  let w1 := w.create_dir_all pdir
  let dst := pdir ++ [logfile.path.getLastD ""]
  match w1.hard_link logfile.path dst with
  | (w2, .ok _) => (w2, .ok ())
  | (w2, .error .alreadyExists) => (w2, .ok ())
  | (w2, .error e) => (w2, .error e)

/-! ## Step (`Unrotate::step`)

One tick: scan, then for each candidate path classify (open + header read) and
link.  The first error aborts the loop and is returned; a `noRecord`
classification is skipped; a classifier panic unwinds the whole task
(`panicked`), which is distinct from a returned step error. -/

/-- Errors a step returns to the scheduler (payloads identify the failure). -/
inductive StepError where
  | scanError : String → StepError
  | classifyError : List String → StepError
  | linkError : List String → FSError → StepError
deriving DecidableEq

/-- How one step ends. -/
inductive StepOutcome where
  | ok : StepOutcome
  | fail : StepError → StepOutcome
  | panicked : StepOutcome
deriving DecidableEq

/-- `VRCLogfile::new` at the `World` level: open the candidate (an absent file
is an open error, i.e. an I/O error) and classify its content. -/
def classifyPath (w : World) (path : List String) : ClassifyResult :=
  match w.lookupFile path with
  | none => .ioError
  | some content => classify content

/-- The whole system: watched directory plus collection. -/
structure Unrotate where
  vrchat : LocalLowVRChat
  collection : UnrotateCollection

/-- The candidate loop of `Unrotate::step`, threading the filesystem. -/
def Unrotate.stepLoop (u : Unrotate) (w : World) :
    List (List String) → World × StepOutcome
  | [] => (w, .ok)
  | path :: rest =>
    match classifyPath w path with
    | .ioError => (w, .fail (.classifyError path))
    | .panic => (w, .panicked)
    | .noRecord => u.stepLoop w rest
    | .record y m d =>
      match u.collection.create_link w ⟨path, ⟨y, m, d⟩⟩ with
      | (w1, .ok _) => u.stepLoop w1 rest
      | (w1, .error e) => (w1, .fail (.linkError path e))

/-- `Unrotate::step`: scan the raw directory listing, then run the loop. -/
def Unrotate.step (u : Unrotate) (entries : List (Except String DirEntry))
    (w : World) : World × StepOutcome :=
  match u.vrchat.list_logfile_paths entries with
  | .error e => (w, .fail (.scanError e))
  | .ok paths => u.stepLoop w paths

/-! ## Concrete sample inputs used by witnesses and counterexamples -/

/-- The 20 bytes of `2024.03.07 12:34:56 `. -/
def sampleHdr : List Nat :=
  [50, 48, 50, 52, 46, 48, 51, 46, 48, 55, 32, 49, 50, 58, 51, 52, 58, 53, 54, 32]

/-- A 30-byte buffer whose first line starts `2024.03.07 12:34:56 `. -/
def sampleContent : List Nat := sampleHdr ++ List.replicate 10 97

/-- A 30-byte buffer whose first line starts `2024.13.32 00:00:00 `:
a header-pattern match that encodes no real calendar date. -/
def invalidDateContent : List Nat :=
  [50, 48, 50, 52, 46, 49, 51, 46, 51, 50, 32, 48, 48, 58, 48, 48, 58, 48, 48, 32] ++
    List.replicate 10 97

/-- A 30-byte buffer (`aaaa…`) with no header-pattern match. -/
def noMatchContent : List Nat := List.replicate 30 97

/-- A 30-byte buffer whose first line starts `２024.03.07 12:34:56 ` with a
fullwidth digit ２ (U+FF12, UTF-8 bytes `EF BC 92`): the Unicode header
pattern matches it, but the captured year bytes are not an ASCII digit
string. -/
def wideDigitContent : List Nat :=
  [239, 188, 146, 48, 50, 52, 46, 48, 51, 46, 48, 55, 32, 49, 50, 58, 51,
   52, 58, 53, 54, 32] ++ List.replicate 8 97

/-- A file name the program's Unicode `\d{2}` accepts though its first digit
is the fullwidth ２ (U+FF12), not an ASCII digit. -/
def wideLogName : String := "output_log_２4-03-07.txt"

/-- A sample system: watched directory `VRChat`, collection root `C`. -/
def sampleUnrotate : Unrotate := ⟨⟨["VRChat"]⟩, ⟨["C"]⟩⟩

/-- A candidate path in the watched directory. -/
def samplePathA : List String := ["VRChat", "output_log_24-03-07.txt"]

/-- A second candidate path, absent from the sample world. -/
def samplePathB : List String := ["VRChat", "output_log_24-03-08.txt"]

/-- A world holding only the first sample log file. -/
def sampleWorld : World := ⟨[(samplePathA, sampleContent)], []⟩

/-- The destination of the first sample log file's hard link. -/
def sampleLinkDest : List String :=
  ["C", "2024-03", "07", "output_log_24-03-07.txt"]

/-- `sampleWorld` after the first sample log file has been linked. -/
def sampleLinkedWorld : World :=
  ⟨[(sampleLinkDest, sampleContent), (samplePathA, sampleContent)],
   [["C", "2024-03", "07"]]⟩

/-! ## Pattern-matching lemmas -/

theorem byteAt_eq_zero_of_le {buf : List Nat} {i : Nat} (h : buf.length ≤ i) :
    byteAt buf i = 0 :=
  List.getD_eq_default _ _ h

theorem lt_length_of_byteAt_ne_zero {buf : List Nat} {i : Nat}
    (h : byteAt buf i ≠ 0) : i < buf.length := by
  by_contra hc
  exact h (byteAt_eq_zero_of_le (Nat.le_of_not_lt hc))

theorem patternAt_iff {buf : List Nat} {p : Nat} :
    patternAt buf p = true ↔
      ∀ k, k < headerTemplate.length →
        tokMatch (headerTemplate.getD k (.lit 0)) (byteAt buf (p + k)) = true := by
  unfold patternAt
  rw [List.all_eq_true]
  constructor
  · intro h k hk
    exact h k (List.mem_range.mpr hk)
  · intro h x hx
    exact h x (List.mem_range.mp hx)

theorem template_byte_ne {t : Tok} (ht : t ∈ headerTemplate) {b : Nat}
    (h : tokMatch t b = true) : b ≠ 0 ∧ b ≠ 10 := by
  fin_cases ht <;>
    simp only [tokMatch, isDigitByte, Bool.and_eq_true, decide_eq_true_eq,
      beq_iff_eq] at h <;> omega

theorem patternAt_byte_ne {buf : List Nat} {p : Nat}
    (h : patternAt buf p = true) {k : Nat} (hk : k < headerTemplate.length) :
    byteAt buf (p + k) ≠ 0 ∧ byteAt buf (p + k) ≠ 10 := by
  have htok := patternAt_iff.mp h k hk
  have hmem : headerTemplate.getD k (.lit 0) ∈ headerTemplate := by
    rw [List.getD_eq_getElem _ _ hk]
    exact List.getElem_mem hk
  exact template_byte_ne hmem htok

theorem patternAt_inbounds {buf : List Nat} {p : Nat}
    (h : patternAt buf p = true) {k : Nat} (hk : k < headerTemplate.length) :
    p + k < buf.length :=
  lt_length_of_byteAt_ne_zero (patternAt_byte_ne h hk).1

theorem find?_range_eq_some {f : Nat → Bool} {p n : Nat}
    (hn : p < n) (hf : f p = true) (hmin : ∀ q, q < p → f q = false) :
    (List.range n).find? f = some p := by
  induction n generalizing f p with
  | zero => omega
  | succ n ih =>
    rw [List.range_succ_eq_map]
    cases p with
    | zero => exact List.find?_cons_of_pos _ hf
    | succ p =>
      have h0 : ¬ f 0 = true := by
        rw [hmin 0 (Nat.succ_pos p)]
        exact Bool.false_ne_true
      rw [List.find?_cons_of_neg _ h0, List.find?_map]
      have hrec := ih (f := fun x => f (Nat.succ x)) (p := p) (by omega) hf
        (fun q hq => hmin (q + 1) (by omega))
      show ((List.range n).find? (f ∘ Nat.succ)).map Nat.succ = some (p + 1)
      rw [show f ∘ Nat.succ = fun x => f (Nat.succ x) from rfl, hrec]
      rfl

/-! ## Capture-group lemmas -/

theorem drop_take_eq_map_range {buf : List Nat} :
    ∀ (n s : Nat), s + n ≤ buf.length →
      (buf.drop s).take n = (List.range n).map (fun k => byteAt buf (s + k))
  | 0, _, _ => by simp
  | n + 1, s, h => by
    have hs : s < buf.length := by omega
    rw [List.drop_eq_getElem_cons hs, List.take_succ_cons, List.range_succ_eq_map,
      List.map_cons, List.map_map]
    have h1 : byteAt buf (s + 0) = buf[s] := by
      unfold byteAt
      rw [Nat.add_zero]
      exact List.getD_eq_getElem _ _ hs
    have h2 : ((fun k => byteAt buf (s + k)) ∘ Nat.succ) =
        fun k => byteAt buf ((s + 1) + k) := by
      funext k
      show byteAt buf (s + (k + 1)) = byteAt buf ((s + 1) + k)
      congr 1
      omega
    rw [h1, h2, drop_take_eq_map_range n (s + 1) (by omega)]

theorem foldl_digits_lt {l : List Nat} (h : l.all isDigitByte = true) :
    ∀ a : Nat,
      l.foldl (fun a b => a * 10 + (b - 48)) a < (a + 1) * 10 ^ l.length := by
  induction l with
  | nil =>
    intro a
    simp
  | cons b l ih =>
    intro a
    rw [List.all_cons, Bool.and_eq_true] at h
    have hb : b - 48 ≤ 9 := by
      have hdig := h.1
      simp only [isDigitByte, Bool.and_eq_true, decide_eq_true_eq] at hdig
      omega
    have hrec := ih h.2 (a * 10 + (b - 48))
    calc (b :: l).foldl (fun a b => a * 10 + (b - 48)) a
        = l.foldl (fun a b => a * 10 + (b - 48)) (a * 10 + (b - 48)) := rfl
      _ < (a * 10 + (b - 48) + 1) * 10 ^ l.length := hrec
      _ ≤ ((a + 1) * 10) * 10 ^ l.length := Nat.mul_le_mul_right _ (by omega)
      _ = (a + 1) * 10 ^ (b :: l).length := by
          rw [List.length_cons, pow_succ]
          ring

theorem rustParseNat_eq_some {m : Nat} {l : List Nat} (hm : 9999 ≤ m)
    (hne : l ≠ []) (hd : l.all isDigitByte = true) (hlen : l.length ≤ 4) :
    rustParseNat m l = some (l.foldl (fun a b => a * 10 + (b - 48)) 0) := by
  obtain ⟨b, l', rfl⟩ : ∃ b l', l = b :: l' := by
    cases l with
    | nil => exact absurd rfl hne
    | cons b l' => exact ⟨b, l', rfl⟩
  have hv : (b :: l').foldl (fun a b => a * 10 + (b - 48)) 0 ≤ m := by
    have hlt := foldl_digits_lt hd 0
    have h10 : (10 : Nat) ^ (b :: l').length ≤ 10 ^ 4 :=
      Nat.pow_le_pow_right (by omega) hlen
    simp only [Nat.one_mul] at hlt
    omega
  simp only [rustParseNat, List.isEmpty_cons, Bool.false_eq_true, if_false, hd,
    if_true, hv, if_pos]

/-- Positions `off ≤ k < off + n` of the template are all digit tokens. -/
def digitRun (off n : Nat) : Prop :=
  ∀ k, k < n → off + k < headerTemplate.length ∧
    headerTemplate.getD (off + k) (.lit 0) = .digit

instance (off n : Nat) : Decidable (digitRun off n) := by
  unfold digitRun
  infer_instance

/-- A digit-class capture group of a match: its bytes are the corresponding
buffer bytes, and they are all digits. -/
theorem capture_group {buf : List Nat} {p : Nat} (hp : patternAt buf p = true)
    (off n : Nat) (hn : 0 < n) (hoff : digitRun off n) :
    captureBytes buf (p + off) n =
      (List.range n).map (fun k => byteAt buf (p + off + k)) ∧
    ((List.range n).map (fun k => byteAt buf (p + off + k))).all isDigitByte
      = true := by
  have hin : ∀ k, k < n → p + off + k < buf.length := by
    intro k hk
    have h1 := (hoff k hk).1
    have := patternAt_inbounds hp h1
    omega
  constructor
  · unfold captureBytes
    apply drop_take_eq_map_range
    have := hin (n - 1) (by omega)
    omega
  · rw [List.all_eq_true]
    intro x hx
    obtain ⟨k, hk, rfl⟩ := List.mem_map.mp hx
    have hk' := List.mem_range.mp hk
    have htok := patternAt_iff.mp hp (off + k) (hoff k hk').1
    rw [(hoff k hk').2] at htok
    rw [← Nat.add_assoc] at htok
    exact htok

/-- Year capture: parsing the `\d{4}` group succeeds with its digit value. -/
theorem capture_parse_y {buf : List Nat} {p : Nat}
    (hp : patternAt buf p = true) :
    rustParseNat i32Max (captureBytes buf p 4) = some (digitsVal buf p 4) := by
  have h := capture_group hp 0 4 (by omega) (by decide)
  rw [Nat.add_zero] at h
  rw [h.1]
  exact rustParseNat_eq_some (by decide) (by simp) h.2 (by simp)

/-- Month capture: parsing the first `\d{2}` group succeeds with its value. -/
theorem capture_parse_m {buf : List Nat} {p : Nat}
    (hp : patternAt buf p = true) :
    rustParseNat u32Max (captureBytes buf (p + 5) 2) =
      some (digitsVal buf (p + 5) 2) := by
  have h := capture_group hp 5 2 (by omega) (by decide)
  rw [h.1]
  exact rustParseNat_eq_some (by decide) (by simp) h.2 (by simp)

/-- Day capture: parsing the second `\d{2}` group succeeds with its value. -/
theorem capture_parse_d {buf : List Nat} {p : Nat}
    (hp : patternAt buf p = true) :
    rustParseNat u32Max (captureBytes buf (p + 8) 2) =
      some (digitsVal buf (p + 8) 2) := by
  have h := capture_group hp 8 2 (by omega) (by decide)
  rw [h.1]
  exact rustParseNat_eq_some (by decide) (by simp) h.2 (by simp)

/-! ## Unicode-matcher lemmas

An ASCII template match is one particular match of the Unicode pattern; the
lemmas below evaluate the matcher on such a match, and bound the span and
byte values of an arbitrary match (every consumed byte is an ASCII digit or
pattern literal, or a UTF-8 lead/continuation byte ≥ 128 — never a newline),
which makes the leftmost line-start match unique in a 30-byte window. -/

theorem litByte_eq (b : Nat) (rest : List Nat) :
    litByte b (b :: rest) = some rest := by
  simp [litByte]

theorem isNdCode_ascii {b : Nat} (h1 : 48 ≤ b) (h2 : b ≤ 57) :
    isNdCode b = true := by
  unfold isNdCode ndRanges
  rw [List.any_cons]
  have hb : ((48 ≤ b : Bool) && (b ≤ 57 : Bool)) = true := by
    simp [h1, h2]
  rw [hb]
  rfl

set_option maxRecDepth 4096 in
theorem nd_ascii_digit {cp : Nat} (hlt : cp < 128) (h : isNdCode cp = true) :
    48 ≤ cp ∧ cp ≤ 57 := by
  have hdec : ∀ n, n < 128 → isNdCode n = true → 48 ≤ n ∧ n ≤ 57 := by decide
  exact hdec cp hlt h

theorem ndChar_ascii {b : Nat} (h : isDigitByte b = true) (rest : List Nat) :
    ndChar (b :: rest) = some ([b], rest) := by
  simp only [isDigitByte, Bool.and_eq_true, decide_eq_true_eq] at h
  unfold ndChar utf8DecodeChar
  dsimp only
  rw [if_pos (by omega : b < 128)]
  dsimp only
  rw [if_pos (isNdCode_ascii h.1 h.2)]
  rfl

theorem ndGroup_ascii : ∀ (ds : List Nat), ds.all isDigitByte = true →
    ∀ (rest : List Nat), ndGroup ds.length (ds ++ rest) = some (ds, rest) := by
  intro ds
  induction ds with
  | nil =>
    intro _ rest
    rfl
  | cons b ds ih =>
    intro h rest
    rw [List.all_cons, Bool.and_eq_true] at h
    show ndGroup (ds.length + 1) (b :: (ds ++ rest)) = some (b :: ds, rest)
    unfold ndGroup
    rw [ndChar_ascii h.1]
    show (ndGroup ds.length (ds ++ rest)).map _ = some (b :: ds, rest)
    rw [ih h.2 rest]
    rfl

theorem matchHeader_template (b0 b1 b2 b3 b5 b6 b8 b9 b11 b12 b14 b15 b17
    b18 : Nat) (rest : List Nat)
    (h0 : isDigitByte b0 = true) (h1 : isDigitByte b1 = true)
    (h2 : isDigitByte b2 = true) (h3 : isDigitByte b3 = true)
    (h5 : isDigitByte b5 = true) (h6 : isDigitByte b6 = true)
    (h8 : isDigitByte b8 = true) (h9 : isDigitByte b9 = true)
    (h11 : isDigitByte b11 = true) (h12 : isDigitByte b12 = true)
    (h14 : isDigitByte b14 = true) (h15 : isDigitByte b15 = true)
    (h17 : isDigitByte b17 = true) (h18 : isDigitByte b18 = true) :
    matchHeader (b0 :: b1 :: b2 :: b3 :: 46 :: b5 :: b6 :: 46 :: b8 :: b9 ::
      32 :: b11 :: b12 :: 58 :: b14 :: b15 :: 58 :: b17 :: b18 :: 32 ::
      rest) = some ([b0, b1, b2, b3], [b5, b6], [b8, b9], rest) := by
  have e1 : ndGroup 4 (b0 :: b1 :: b2 :: b3 :: 46 :: b5 :: b6 :: 46 :: b8 ::
      b9 :: 32 :: b11 :: b12 :: 58 :: b14 :: b15 :: 58 :: b17 :: b18 :: 32 ::
      rest) = some ([b0, b1, b2, b3], 46 :: b5 :: b6 :: 46 :: b8 :: b9 ::
      32 :: b11 :: b12 :: 58 :: b14 :: b15 :: 58 :: b17 :: b18 :: 32 ::
      rest) :=
    ndGroup_ascii [b0, b1, b2, b3] (by simp [h0, h1, h2, h3]) _
  have e2 : ndGroup 2 (b5 :: b6 :: 46 :: b8 :: b9 :: 32 :: b11 :: b12 ::
      58 :: b14 :: b15 :: 58 :: b17 :: b18 :: 32 :: rest) = some ([b5, b6],
      46 :: b8 :: b9 :: 32 :: b11 :: b12 :: 58 :: b14 :: b15 :: 58 :: b17 ::
      b18 :: 32 :: rest) :=
    ndGroup_ascii [b5, b6] (by simp [h5, h6]) _
  have e3 : ndGroup 2 (b8 :: b9 :: 32 :: b11 :: b12 :: 58 :: b14 :: b15 ::
      58 :: b17 :: b18 :: 32 :: rest) = some ([b8, b9], 32 :: b11 :: b12 ::
      58 :: b14 :: b15 :: 58 :: b17 :: b18 :: 32 :: rest) :=
    ndGroup_ascii [b8, b9] (by simp [h8, h9]) _
  have e4 : ndGroup 2 (b11 :: b12 :: 58 :: b14 :: b15 :: 58 :: b17 :: b18 ::
      32 :: rest) = some ([b11, b12], 58 :: b14 :: b15 :: 58 :: b17 :: b18 ::
      32 :: rest) :=
    ndGroup_ascii [b11, b12] (by simp [h11, h12]) _
  have e5 : ndGroup 2 (b14 :: b15 :: 58 :: b17 :: b18 :: 32 :: rest) =
      some ([b14, b15], 58 :: b17 :: b18 :: 32 :: rest) :=
    ndGroup_ascii [b14, b15] (by simp [h14, h15]) _
  have e6 : ndGroup 2 (b17 :: b18 :: 32 :: rest) =
      some ([b17, b18], 32 :: rest) :=
    ndGroup_ascii [b17, b18] (by simp [h17, h18]) _
  simp only [matchHeader, e1, Option.some_bind, litByte_eq, e2, e3, e4, e5,
    e6, Option.map_some']

theorem drop_decomp {buf : List Nat} {p : Nat} (h : p + 20 ≤ buf.length) :
    buf.drop p = byteAt buf (p + 0) :: byteAt buf (p + 1) ::
      byteAt buf (p + 2) :: byteAt buf (p + 3) :: byteAt buf (p + 4) ::
      byteAt buf (p + 5) :: byteAt buf (p + 6) :: byteAt buf (p + 7) ::
      byteAt buf (p + 8) :: byteAt buf (p + 9) :: byteAt buf (p + 10) ::
      byteAt buf (p + 11) :: byteAt buf (p + 12) :: byteAt buf (p + 13) ::
      byteAt buf (p + 14) :: byteAt buf (p + 15) :: byteAt buf (p + 16) ::
      byteAt buf (p + 17) :: byteAt buf (p + 18) :: byteAt buf (p + 19) ::
      buf.drop (p + 20) := by
  have h1 := (List.take_append_drop 20 (buf.drop p)).symm
  rw [drop_take_eq_map_range 20 p h, List.drop_drop] at h1
  rw [h1]
  rfl

theorem matchHeader_ascii {buf : List Nat} {p : Nat}
    (hpat : patternAt buf p = true) :
    matchHeader (buf.drop p) =
      some (captureBytes buf p 4, captureBytes buf (p + 5) 2,
        captureBytes buf (p + 8) 2, buf.drop (p + 20)) := by
  have hin : p + 20 ≤ buf.length := by
    have h19 : (19 : Nat) < headerTemplate.length := by decide
    have := patternAt_inbounds hpat h19
    omega
  have d0 : isDigitByte (byteAt buf (p + 0)) = true :=
    patternAt_iff.mp hpat 0 (by decide)
  have d1 : isDigitByte (byteAt buf (p + 1)) = true :=
    patternAt_iff.mp hpat 1 (by decide)
  have d2 : isDigitByte (byteAt buf (p + 2)) = true :=
    patternAt_iff.mp hpat 2 (by decide)
  have d3 : isDigitByte (byteAt buf (p + 3)) = true :=
    patternAt_iff.mp hpat 3 (by decide)
  have d5 : isDigitByte (byteAt buf (p + 5)) = true :=
    patternAt_iff.mp hpat 5 (by decide)
  have d6 : isDigitByte (byteAt buf (p + 6)) = true :=
    patternAt_iff.mp hpat 6 (by decide)
  have d8 : isDigitByte (byteAt buf (p + 8)) = true :=
    patternAt_iff.mp hpat 8 (by decide)
  have d9 : isDigitByte (byteAt buf (p + 9)) = true :=
    patternAt_iff.mp hpat 9 (by decide)
  have d11 : isDigitByte (byteAt buf (p + 11)) = true :=
    patternAt_iff.mp hpat 11 (by decide)
  have d12 : isDigitByte (byteAt buf (p + 12)) = true :=
    patternAt_iff.mp hpat 12 (by decide)
  have d14 : isDigitByte (byteAt buf (p + 14)) = true :=
    patternAt_iff.mp hpat 14 (by decide)
  have d15 : isDigitByte (byteAt buf (p + 15)) = true :=
    patternAt_iff.mp hpat 15 (by decide)
  have d17 : isDigitByte (byteAt buf (p + 17)) = true :=
    patternAt_iff.mp hpat 17 (by decide)
  have d18 : isDigitByte (byteAt buf (p + 18)) = true :=
    patternAt_iff.mp hpat 18 (by decide)
  have l4 : byteAt buf (p + 4) = 46 :=
    beq_iff_eq.mp (patternAt_iff.mp hpat 4 (by decide))
  have l7 : byteAt buf (p + 7) = 46 :=
    beq_iff_eq.mp (patternAt_iff.mp hpat 7 (by decide))
  have l10 : byteAt buf (p + 10) = 32 :=
    beq_iff_eq.mp (patternAt_iff.mp hpat 10 (by decide))
  have l13 : byteAt buf (p + 13) = 58 :=
    beq_iff_eq.mp (patternAt_iff.mp hpat 13 (by decide))
  have l16 : byteAt buf (p + 16) = 58 :=
    beq_iff_eq.mp (patternAt_iff.mp hpat 16 (by decide))
  have l19 : byteAt buf (p + 19) = 32 :=
    beq_iff_eq.mp (patternAt_iff.mp hpat 19 (by decide))
  have c1 : captureBytes buf p 4 =
      [byteAt buf (p + 0), byteAt buf (p + 1), byteAt buf (p + 2),
       byteAt buf (p + 3)] := by
    show (buf.drop p).take 4 = _
    rw [drop_decomp hin]
    rfl
  have c2 : captureBytes buf (p + 5) 2 =
      [byteAt buf (p + 5), byteAt buf (p + 6)] := by
    show (buf.drop (p + 5)).take 2 = _
    rw [drop_take_eq_map_range 2 (p + 5) (by omega)]
    rfl
  have c3 : captureBytes buf (p + 8) 2 =
      [byteAt buf (p + 8), byteAt buf (p + 9)] := by
    show (buf.drop (p + 8)).take 2 = _
    rw [drop_take_eq_map_range 2 (p + 8) (by omega)]
    rfl
  rw [drop_decomp hin, l4, l7, l10, l13, l16, l19, c1, c2, c3]
  exact matchHeader_template _ _ _ _ _ _ _ _ _ _ _ _ _ _ _
    d0 d1 d2 d3 d5 d6 d8 d9 d11 d12 d14 d15 d17 d18

theorem utf8DecodeChar_bytes {bs : List Nat} {cp k : Nat}
    (h : utf8DecodeChar bs = some (cp, k)) :
    1 ≤ k ∧ k ≤ bs.length ∧
      ((k = 1 ∧ bs.take 1 = [cp] ∧ cp < 128) ∨ (∀ b ∈ bs.take k, 128 ≤ b)) := by
  cases bs with
  | nil => exact Option.noConfusion h
  | cons b0 rest =>
    unfold utf8DecodeChar at h
    dsimp only at h
    by_cases h0 : b0 < 128
    · rw [if_pos h0] at h
      have hinj := (Option.some.injEq _ _).mp h
      have hcp : b0 = cp := congrArg Prod.fst hinj
      have hk : 1 = k := congrArg Prod.snd hinj
      subst hcp
      subst hk
      exact ⟨Nat.le_refl 1, by simp, Or.inl ⟨rfl, rfl, h0⟩⟩
    · rw [if_neg h0] at h
      by_cases hc2 : ((194 ≤ b0 : Bool) && (b0 ≤ 223 : Bool)) = true
      · rw [if_pos hc2] at h
        cases rest with
        | nil => exact Option.noConfusion h
        | cons b1 rest2 =>
          dsimp only at h
          by_cases hb1 : ((128 ≤ b1 : Bool) && (b1 ≤ 191 : Bool)) = true
          · rw [if_pos hb1] at h
            have hinj := (Option.some.injEq _ _).mp h
            have hk : 2 = k := congrArg Prod.snd hinj
            subst hk
            simp only [Bool.and_eq_true, decide_eq_true_eq] at hc2 hb1
            refine ⟨by omega, by simp, Or.inr ?_⟩
            intro b hb
            rw [show (b0 :: b1 :: rest2).take 2 = [b0, b1] from rfl] at hb
            simp only [List.mem_cons, List.not_mem_nil, or_false] at hb
            rcases hb with rfl | rfl <;> omega
          · rw [if_neg hb1] at h
            exact Option.noConfusion h
      · rw [if_neg hc2] at h
        by_cases hc3 : ((224 ≤ b0 : Bool) && (b0 ≤ 239 : Bool)) = true
        · rw [if_pos hc3] at h
          match rest with
          | [] => exact Option.noConfusion h
          | [b1] => exact Option.noConfusion h
          | b1 :: b2 :: rest2 =>
            dsimp only at h
            by_cases hcond : ((((if (b0 == 224) = true then 160 else 128) ≤ b1 : Bool) &&
                (b1 ≤ (if (b0 == 237) = true then 159 else 191) : Bool) &&
                (128 ≤ b2 : Bool) && (b2 ≤ 191 : Bool)) = true)
            · rw [if_pos hcond] at h
              have hinj := (Option.some.injEq _ _).mp h
              have hk : 3 = k := congrArg Prod.snd hinj
              subst hk
              simp only [Bool.and_eq_true, decide_eq_true_eq] at hc3 hcond
              have hb1lo : 128 ≤ b1 := by
                have := hcond.1.1.1
                split at this <;> omega
              refine ⟨by omega, by simp, Or.inr ?_⟩
              intro b hb
              rw [show (b0 :: b1 :: b2 :: rest2).take 3 = [b0, b1, b2]
                from rfl] at hb
              simp only [List.mem_cons, List.not_mem_nil, or_false] at hb
              have hb2 := hcond.1.2
              rcases hb with rfl | rfl | rfl <;> omega
            · rw [if_neg hcond] at h
              exact Option.noConfusion h
        · rw [if_neg hc3] at h
          by_cases hc4 : ((240 ≤ b0 : Bool) && (b0 ≤ 244 : Bool)) = true
          · rw [if_pos hc4] at h
            match rest with
            | [] => exact Option.noConfusion h
            | [b1] => exact Option.noConfusion h
            | [b1, b2] => exact Option.noConfusion h
            | b1 :: b2 :: b3 :: rest2 =>
              dsimp only at h
              by_cases hcond : ((((if (b0 == 240) = true then 144 else 128) ≤ b1 : Bool) &&
                  (b1 ≤ (if (b0 == 244) = true then 143 else 191) : Bool) &&
                  (128 ≤ b2 : Bool) && (b2 ≤ 191 : Bool) &&
                  (128 ≤ b3 : Bool) && (b3 ≤ 191 : Bool)) = true)
              · rw [if_pos hcond] at h
                have hinj := (Option.some.injEq _ _).mp h
                have hk : 4 = k := congrArg Prod.snd hinj
                subst hk
                simp only [Bool.and_eq_true, decide_eq_true_eq] at hc4 hcond
                have hb1lo : 128 ≤ b1 := by
                  have := hcond.1.1.1.1.1
                  split at this <;> omega
                refine ⟨by omega, by simp, Or.inr ?_⟩
                intro b hb
                rw [show (b0 :: b1 :: b2 :: b3 :: rest2).take 4 =
                  [b0, b1, b2, b3] from rfl] at hb
                simp only [List.mem_cons, List.not_mem_nil, or_false] at hb
                have hb2 := hcond.1.1.1.2
                have hb3 := hcond.1.2
                rcases hb with rfl | rfl | rfl | rfl <;> omega
              · rw [if_neg hcond] at h
                exact Option.noConfusion h
          · rw [if_neg hc4] at h
            exact Option.noConfusion h

theorem ndChar_decomp {bs c rest : List Nat} (h : ndChar bs = some (c, rest)) :
    bs = c ++ rest ∧ 1 ≤ c.length ∧ ∀ b ∈ c, 32 ≤ b := by
  unfold ndChar at h
  cases hd : utf8DecodeChar bs with
  | none =>
    rw [hd] at h
    exact Option.noConfusion h
  | some v =>
    rw [hd] at h
    rcases v with ⟨cp, k⟩
    dsimp only at h
    by_cases hnd : isNdCode cp = true
    · rw [if_pos hnd] at h
      have hinj := (Option.some.injEq _ _).mp h
      have hc : bs.take k = c := congrArg Prod.fst hinj
      have hr : bs.drop k = rest := congrArg Prod.snd hinj
      obtain ⟨hk1, hklen, hbytes⟩ := utf8DecodeChar_bytes hd
      refine ⟨by rw [← hc, ← hr, List.take_append_drop], ?_, ?_⟩
      · rw [← hc, List.length_take]
        omega
      · intro b hb
        rw [← hc] at hb
        rcases hbytes with ⟨hk, htake, hcp⟩ | hall
        · subst hk
          rw [htake] at hb
          have hbcp : b = cp := by simpa using hb
          subst hbcp
          have := nd_ascii_digit hcp hnd
          omega
        · have := hall b hb
          omega
    · rw [if_neg hnd] at h
      exact Option.noConfusion h

theorem litByte_decomp {b : Nat} {bs rest : List Nat}
    (h : litByte b bs = some rest) : bs = b :: rest := by
  cases bs with
  | nil => exact Option.noConfusion h
  | cons b0 rest2 =>
    unfold litByte at h
    dsimp only at h
    by_cases hb : b0 = b
    · rw [if_pos hb] at h
      rw [hb, (Option.some.injEq _ _).mp h]
    · rw [if_neg hb] at h
      exact Option.noConfusion h

theorem ndGroup_decomp : ∀ {n : Nat} {bs g rest : List Nat},
    ndGroup n bs = some (g, rest) →
    bs = g ++ rest ∧ n ≤ g.length ∧ ∀ b ∈ g, 32 ≤ b := by
  intro n
  induction n with
  | zero =>
    intro bs g rest h
    have hinj : (([], bs) : List Nat × List Nat) = (g, rest) :=
      (Option.some.injEq _ _).mp h
    have hg : ([] : List Nat) = g := congrArg Prod.fst hinj
    have hr : bs = rest := congrArg Prod.snd hinj
    subst hg
    subst hr
    exact ⟨rfl, Nat.zero_le _, by simp⟩
  | succ n ih =>
    intro bs g rest h
    unfold ndGroup at h
    rw [Option.bind_eq_some] at h
    obtain ⟨cb, hcb, h2⟩ := h
    rw [Option.map_eq_some'] at h2
    obtain ⟨gb, hgb, h3⟩ := h2
    rcases cb with ⟨c, bs1⟩
    rcases gb with ⟨g2, bs2⟩
    dsimp only at hgb h3
    have hg : c ++ g2 = g := congrArg Prod.fst h3
    have hr : bs2 = rest := congrArg Prod.snd h3
    subst hg
    subst hr
    obtain ⟨hbs, hc1, hcall⟩ := ndChar_decomp hcb
    obtain ⟨hbs1, hg2, hgall⟩ := ih hgb
    refine ⟨?_, ?_, ?_⟩
    · rw [hbs, hbs1, List.append_assoc]
    · rw [List.length_append]
      omega
    · intro b hb
      rcases List.mem_append.mp hb with hb | hb
      · exact hcall b hb
      · exact hgall b hb

theorem matchHeader_decomp {bs g1 g2 g3 rest : List Nat}
    (h : matchHeader bs = some (g1, g2, g3, rest)) :
    ∃ consumed, bs = consumed ++ rest ∧ 20 ≤ consumed.length ∧
      ∀ b ∈ consumed, 32 ≤ b := by
  unfold matchHeader at h
  simp only [Option.bind_eq_some, Option.map_eq_some'] at h
  obtain ⟨⟨ga, ra⟩, ha, s1, hs1, ⟨gb, rb⟩, hb, s2, hs2, ⟨gc, rc⟩, hc, s3, hs3,
    ⟨gd, rd⟩, hd, s4, hs4, ⟨ge, re⟩, he, s5, hs5, ⟨gf, rf⟩, hf, s6, hs6,
    hfin⟩ := h
  dsimp only at hs1 hs2 hs3 hs4 hs5 hs6 hfin
  obtain ⟨hA, hlA, hbA⟩ := ndGroup_decomp ha
  have e1 := litByte_decomp hs1
  obtain ⟨hB, hlB, hbB⟩ := ndGroup_decomp hb
  have e2 := litByte_decomp hs2
  obtain ⟨hC, hlC, hbC⟩ := ndGroup_decomp hc
  have e3 := litByte_decomp hs3
  obtain ⟨hD, hlD, hbD⟩ := ndGroup_decomp hd
  have e4 := litByte_decomp hs4
  obtain ⟨hE, hlE, hbE⟩ := ndGroup_decomp he
  have e5 := litByte_decomp hs5
  obtain ⟨hF, hlF, hbF⟩ := ndGroup_decomp hf
  have e6 := litByte_decomp hs6
  have hrest : s6 = rest := by
    have := congrArg (fun q => q.2.2.2) hfin
    exact this
  subst hrest
  refine ⟨ga ++ 46 :: (gb ++ 46 :: (gc ++ 32 :: (gd ++ 58 :: (ge ++ 58 ::
    (gf ++ [32]))))), ?_, ?_, ?_⟩
  · rw [hA, e1, hB, e2, hC, e3, hD, e4, hE, e5, hF, e6]
    simp [List.append_assoc]
  · simp only [List.length_append, List.length_cons, List.length_nil]
    omega
  · intro b hbm
    simp only [List.mem_append, List.mem_cons, List.mem_singleton,
      List.not_mem_nil, or_false] at hbm
    rcases hbm with hx | rfl | hx | rfl | hx | rfl | hx | rfl | hx | rfl |
      hx | rfl
    · exact hbA b hx
    · omega
    · exact hbB b hx
    · omega
    · exact hbC b hx
    · omega
    · exact hbD b hx
    · omega
    · exact hbE b hx
    · omega
    · exact hbF b hx
    · omega

/-- Two line-start matches cannot coexist in a buffer of at most 40 bytes:
any match spans at least 20 newline-free bytes, so the later line start would
put a newline inside the earlier match. -/
theorem match_uniqueU {buf : List Nat} {q p : Nat} (hlen : buf.length ≤ 40)
    (hq : (matchHeader (buf.drop q)).isSome = true)
    (hp : patternAt buf p = true) (hpline : lineStart buf p = true)
    (hqp : q < p) : False := by
  obtain ⟨g1, g2, g3, rest, hm⟩ : ∃ g1 g2 g3 rest,
      matchHeader (buf.drop q) = some (g1, g2, g3, rest) := by
    cases hmm : matchHeader (buf.drop q) with
    | none =>
      rw [hmm] at hq
      exact Bool.noConfusion hq
    | some v =>
      rcases v with ⟨a, b, c, d⟩
      exact ⟨a, b, c, d, rfl⟩
  obtain ⟨consumed, hdec, hclen, hcb⟩ := matchHeader_decomp hm
  have hnl : byteAt buf (p - 1) = 10 := by
    unfold lineStart at hpline
    rcases Bool.or_eq_true_iff.mp hpline with h0 | h10
    · rw [beq_iff_eq] at h0
      exact absurd h0 (by omega)
    · rwa [beq_iff_eq] at h10
  have hplen : p + 19 < buf.length := by
    have h19 : (19 : Nat) < headerTemplate.length := by decide
    exact patternAt_inbounds hp h19
  have hi : p - 1 - q < consumed.length := by omega
  have hb : byteAt buf (p - 1) = consumed.getD (p - 1 - q) 0 := by
    have h1 : byteAt buf (p - 1) = byteAt (buf.drop q) (p - 1 - q) := by
      unfold byteAt
      rw [List.getD_eq_getElem?_getD, List.getD_eq_getElem?_getD,
        List.getElem?_drop]
      have : q + (p - 1 - q) = p - 1 := by omega
      rw [this]
    rw [h1, hdec]
    unfold byteAt
    rw [List.getD_eq_getElem?_getD, List.getD_eq_getElem?_getD,
      List.getElem?_append_left hi]
  have hmem : consumed.getD (p - 1 - q) 0 ∈ consumed := by
    rw [List.getD_eq_getElem _ _ hi]
    exact List.getElem_mem hi
  have := hcb _ hmem
  rw [← hb, hnl] at this
  omega

/-- On an ASCII template match at line start `p` of a small buffer, the
leftmost match of the Unicode pattern is exactly at `p`, capturing the three
ASCII digit slices. -/
theorem findMatchU_eq_some {buf : List Nat} {p : Nat} (hlen : buf.length ≤ 40)
    (hline : lineStart buf p = true) (hpat : patternAt buf p = true) :
    findMatchU buf = some (p, captureBytes buf p 4,
      captureBytes buf (p + 5) 2, captureBytes buf (p + 8) 2) := by
  have hm := matchHeader_ascii hpat
  have hp_lt : p < buf.length := by
    have h0 : (0 : Nat) < headerTemplate.length := by decide
    have := patternAt_inbounds hpat h0
    omega
  have hsat : (lineStart buf p && (matchHeader (buf.drop p)).isSome) = true := by
    rw [hline, hm]
    rfl
  have hmin : ∀ q, q < p →
      (lineStart buf q && (matchHeader (buf.drop q)).isSome) = false := by
    intro q hq
    cases hql : lineStart buf q with
    | false => simp [hql]
    | true =>
      cases hqm : (matchHeader (buf.drop q)).isSome with
      | false => simp [hql, hqm]
      | true => exact (match_uniqueU hlen hqm hpat hline hq).elim
  unfold findMatchU
  rw [find?_range_eq_some hp_lt hsat hmin, Option.some_bind, hm]
  rfl

/-- On a matched header at line start `p` of the 30-byte window, classification
either returns the record with the captured date or panics on an invalid
date. -/
theorem classify_eq_of_match {content : List Nat} {p : Nat}
    (hlen : 30 ≤ content.length)
    (hline : lineStart (content.take 30) p = true)
    (hpat : patternAt (content.take 30) p = true) :
    classify content =
      (if validYmd (digitsVal (content.take 30) p 4)
          (digitsVal (content.take 30) (p + 5) 2)
          (digitsVal (content.take 30) (p + 8) 2)
        then ClassifyResult.record (digitsVal (content.take 30) p 4)
          (digitsVal (content.take 30) (p + 5) 2)
          (digitsVal (content.take 30) (p + 8) 2)
        else ClassifyResult.panic) := by
  have hfm : findMatchU (content.take 30) = some (p,
      captureBytes (content.take 30) p 4,
      captureBytes (content.take 30) (p + 5) 2,
      captureBytes (content.take 30) (p + 8) 2) :=
    findMatchU_eq_some (by rw [List.length_take]; omega) hline hpat
  unfold classify
  rw [if_neg (by omega)]
  simp only [hfm, capture_parse_y hpat, capture_parse_m hpat,
    capture_parse_d hpat]

/-! ## Claim theorems: classifier -/

/-- C1 (counterexample to the claim as stated): `invalidDateContent` is a
30-byte buffer whose first line begins `2024.13.32 00:00:00 ` — a line
matching the 4-digit/2-digit/2-digit header pattern — yet classification does
not return a dated log record with those values: it panics in
`NaiveDate::from_ymd`. -/
theorem c1_counterexample_invalid_date :
    30 ≤ invalidDateContent.length ∧
    lineStart (invalidDateContent.take 30) 0 = true ∧
    patternAt (invalidDateContent.take 30) 0 = true ∧
    digitsVal (invalidDateContent.take 30) 0 4 = 2024 ∧
    digitsVal (invalidDateContent.take 30) (0 + 5) 2 = 13 ∧
    digitsVal (invalidDateContent.take 30) (0 + 8) 2 = 32 ∧
    classify invalidDateContent ≠ .record 2024 13 32 ∧
    classify invalidDateContent = .panic := by
  decide

/-- C1 (amended): for every file whose first 30 bytes contain a line beginning
`YYYY.MM.DD HH:MM:SS ` — anchored at the start of some line, not only at byte
0 — **whose digits form a valid calendar date**, classification returns a
dated log record with exactly those year, month, and day values. -/
theorem c1_classify_extracts_header_date (content : List Nat) (p : Nat)
    (hlen : 30 ≤ content.length)
    (hline : lineStart (content.take 30) p = true)
    (hpat : patternAt (content.take 30) p = true)
    (hvalid : validYmd (digitsVal (content.take 30) p 4)
      (digitsVal (content.take 30) (p + 5) 2)
      (digitsVal (content.take 30) (p + 8) 2) = true) :
    classify content = .record (digitsVal (content.take 30) p 4)
      (digitsVal (content.take 30) (p + 5) 2)
      (digitsVal (content.take 30) (p + 8) 2) := by
  rw [classify_eq_of_match hlen hline hpat, if_pos hvalid]

/-- C1 witness: a buffer whose first line is `2024.03.07 12:34:56 …` yields
date 2024-03-07. -/
theorem c1_classify_extracts_header_date_witness :
    classify sampleContent = .record 2024 3 7 := by
  have h := c1_classify_extracts_header_date sampleContent 0
    (by decide) (by decide) (by decide) (by decide)
  rw [h]
  decide

/-- C6: a file shorter than 30 bytes classifies to an I/O error, never to a
success or a silent skip; and classification of a file of at least 30 bytes
depends only on its first 30 bytes (the classifier reads exactly those). -/
theorem c6_short_file_is_io_error :
    (∀ content : List Nat, content.length < 30 → classify content = .ioError) ∧
    (∀ c1 c2 : List Nat, 30 ≤ c1.length → 30 ≤ c2.length →
      c1.take 30 = c2.take 30 → classify c1 = classify c2) := by
  constructor
  · intro content h
    unfold classify
    rw [if_pos h]
  · intro c1 c2 h1 h2 heq
    unfold classify
    rw [if_neg (by omega), if_neg (by omega), heq]

/-- C6 witness: a 29-byte file (even one starting with a date header) is an
I/O error, and appending a byte beyond position 30 does not change the
classification. -/
theorem c6_short_file_is_io_error_witness :
    classify (sampleContent.take 29) = .ioError ∧
    classify sampleContent = classify (sampleContent ++ [97]) := by
  constructor
  · exact c6_short_file_is_io_error.1 (sampleContent.take 29) (by decide)
  · exact c6_short_file_is_io_error.2 sampleContent (sampleContent ++ [97])
      (by decide) (by decide) (by decide)

/-- C7: a file of at least 30 bytes whose 30-byte window contains no match
of the header pattern at any line start classifies to `noRecord` — a
success, not an error — and the step loop silently skips such a candidate,
behaving exactly as on the remaining candidates. -/
theorem c7_no_match_is_silent_skip :
    (∀ content : List Nat, 30 ≤ content.length →
      (∀ p ∈ List.range 30, lineStart (content.take 30) p = true →
        matchHeader ((content.take 30).drop p) = none) →
      classify content = .noRecord) ∧
    (∀ (u : Unrotate) (w : World) (path : List String)
      (rest : List (List String)), classifyPath w path = .noRecord →
      u.stepLoop w (path :: rest) = u.stepLoop w rest) := by
  constructor
  · intro content hlen hno
    have hfm : findMatchU (content.take 30) = none := by
      unfold findMatchU
      have hfind : ((List.range (content.take 30).length).find? fun p =>
          lineStart (content.take 30) p &&
            (matchHeader ((content.take 30).drop p)).isSome) = none := by
        rw [List.find?_eq_none]
        intro x hx hcontra
        have hx30 : x ∈ List.range 30 := by
          rw [List.mem_range]
          have := List.mem_range.mp hx
          rw [List.length_take] at this
          omega
        rw [Bool.and_eq_true] at hcontra
        have hnone := hno x hx30 hcontra.1
        rw [hnone] at hcontra
        exact Bool.noConfusion hcontra.2
      rw [hfind]
      rfl
    unfold classify
    rw [if_neg (by omega)]
    simp only [hfm]
  · intro u w path rest h
    simp only [Unrotate.stepLoop, h]

/-- C7 witness: 30 bytes of `a` classify to `noRecord`, and the loop skips
such a candidate without touching the world. -/
theorem c7_no_match_is_silent_skip_witness :
    classify noMatchContent = .noRecord ∧
    sampleUnrotate.stepLoop ⟨[(samplePathB, noMatchContent)], []⟩
      [samplePathB] = (⟨[(samplePathB, noMatchContent)], []⟩, .ok) := by
  constructor
  · exact c7_no_match_is_silent_skip.1 noMatchContent (by decide) (by decide)
  · rw [c7_no_match_is_silent_skip.2 sampleUnrotate
      ⟨[(samplePathB, noMatchContent)], []⟩ samplePathB [] (by decide)]
    rfl

theorem ndChar_ascii_length {bs c rest : List Nat}
    (h : ndChar bs = some (c, rest)) (hd : c.all isDigitByte = true) :
    c.length = 1 := by
  unfold ndChar at h
  cases hdc : utf8DecodeChar bs with
  | none =>
    rw [hdc] at h
    exact Option.noConfusion h
  | some v =>
    rw [hdc] at h
    rcases v with ⟨cp, k⟩
    dsimp only at h
    by_cases hnd : isNdCode cp = true
    · rw [if_pos hnd] at h
      have hc : bs.take k = c :=
        congrArg Prod.fst ((Option.some.injEq _ _).mp h)
      obtain ⟨hk1, hklen, hbytes⟩ := utf8DecodeChar_bytes hdc
      rcases hbytes with ⟨hk, _, _⟩ | hall
      · rw [← hc, List.length_take]
        omega
      · exfalso
        have hne : c ≠ [] := by
          rw [← hc]
          intro hc0
          have hlen0 := congrArg List.length hc0
          rw [List.length_take] at hlen0
          simp only [List.length_nil] at hlen0
          omega
        obtain ⟨b, hbmem⟩ : ∃ b, b ∈ c := by
          cases c with
          | nil => exact absurd rfl hne
          | cons x xs => exact ⟨x, List.mem_cons_self _ _⟩
        have h128 := hall b (by rw [hc]; exact hbmem)
        rw [List.all_eq_true] at hd
        have hdig := hd b hbmem
        simp only [isDigitByte, Bool.and_eq_true, decide_eq_true_eq] at hdig
        omega
    · rw [if_neg hnd] at h
      exact Option.noConfusion h

theorem ndGroup_ascii_length : ∀ {n : Nat} {bs g rest : List Nat},
    ndGroup n bs = some (g, rest) → g.all isDigitByte = true →
    g.length = n := by
  intro n
  induction n with
  | zero =>
    intro bs g rest h _
    have hg : ([] : List Nat) = g :=
      congrArg Prod.fst ((Option.some.injEq _ _).mp h)
    rw [← hg]
    rfl
  | succ n ih =>
    intro bs g rest h hall
    unfold ndGroup at h
    rw [Option.bind_eq_some] at h
    obtain ⟨⟨c, bs1⟩, hcb, h2⟩ := h
    dsimp only at h2
    rw [Option.map_eq_some'] at h2
    obtain ⟨⟨g2, bs2⟩, hgb, h3⟩ := h2
    dsimp only at h3
    have hg : c ++ g2 = g := congrArg Prod.fst h3
    subst hg
    rw [List.all_append, Bool.and_eq_true] at hall
    have hc1 : c.length = 1 := ndChar_ascii_length hcb hall.1
    have hg2 : g2.length = n := ih hgb hall.2
    rw [List.length_append]
    omega

theorem findMatchU_groups {buf : List Nat} {p : Nat} {g1 g2 g3 : List Nat}
    (h : findMatchU buf = some (p, g1, g2, g3)) :
    ∃ t1 r1 t2 r2 t3 r3, ndGroup 4 t1 = some (g1, r1) ∧
      ndGroup 2 t2 = some (g2, r2) ∧ ndGroup 2 t3 = some (g3, r3) := by
  unfold findMatchU at h
  rw [Option.bind_eq_some] at h
  obtain ⟨q, _, h2⟩ := h
  rw [Option.map_eq_some'] at h2
  obtain ⟨⟨a, b, c, d⟩, hmh, h3⟩ := h2
  dsimp only at h3
  have hg1 : a = g1 := congrArg (fun x => x.2.1) h3
  have hg2 : b = g2 := congrArg (fun x => x.2.2.1) h3
  have hg3 : c = g3 := congrArg (fun x => x.2.2.2) h3
  subst hg1
  subst hg2
  subst hg3
  unfold matchHeader at hmh
  simp only [Option.bind_eq_some, Option.map_eq_some'] at hmh
  obtain ⟨⟨ga, ra⟩, ha, s1, hs1, ⟨gb, rb⟩, hb, s2, hs2, ⟨gc, rc⟩, hc, s3,
    hs3, ⟨gd, rd⟩, hd2, s4, hs4, ⟨ge2, re⟩, he, s5, hs5, ⟨gf, rf⟩, hf, s6,
    hs6, hfin⟩ := hmh
  dsimp only at hs1 hs2 hs3 hs4 hs5 hs6 hfin
  have e1 : ga = a := congrArg (fun x => x.1) hfin
  have e2 : gb = b := congrArg (fun x => x.2.1) hfin
  have e3 : gc = c := congrArg (fun x => x.2.2.1) hfin
  subst e1
  subst e2
  subst e3
  exact ⟨_, _, _, _, _, _, ha, hb, hc⟩

/-- C8 (counterexample to the claim as stated): on `wideDigitContent` the
header pattern matches at byte 0, capturing the year group
`２024` (bytes `EF BC 92 30 32 34`), but `str::parse` rejects the non-ASCII
digit, so the `expect` panic branch is reached: classification panics
instead of building a record. -/
theorem c8_counterexample_unicode_digit :
    findMatchU wideDigitContent =
      some (0, [239, 188, 146, 48, 50, 52], [48, 51], [48, 55]) ∧
    rustParseNat i32Max [239, 188, 146, 48, 50, 52] = none ∧
    classify wideDigitContent = .panic := by
  refine ⟨by decide, by decide, by decide⟩

/-- C8 (amended): whenever the header pattern matched **and the captured
groups consist of ASCII digits**, the UTF-8 conversion and base-10 parse of
each group succeed with the group's digit value, so the two `expect` panic
branches are not reached on such matches.  (A match whose `\d` consumed a
non-ASCII Unicode digit makes the parse fail and the `expect` panic, as the
counterexample shows.) -/
theorem c8_capture_parse_ascii (buf : List Nat) (p : Nat)
    (g1 g2 g3 : List Nat) (h : findMatchU buf = some (p, g1, g2, g3))
    (h1 : g1.all isDigitByte = true) (h2 : g2.all isDigitByte = true)
    (h3 : g3.all isDigitByte = true) :
    rustParseNat i32Max g1 =
      some (g1.foldl (fun a b => a * 10 + (b - 48)) 0) ∧
    rustParseNat u32Max g2 =
      some (g2.foldl (fun a b => a * 10 + (b - 48)) 0) ∧
    rustParseNat u32Max g3 =
      some (g3.foldl (fun a b => a * 10 + (b - 48)) 0) := by
  obtain ⟨t1, r1, t2, r2, t3, r3, e1, e2, e3⟩ := findMatchU_groups h
  have l1 : g1.length = 4 := ndGroup_ascii_length e1 h1
  have l2 : g2.length = 2 := ndGroup_ascii_length e2 h2
  have l3 : g3.length = 2 := ndGroup_ascii_length e3 h3
  refine ⟨?_, ?_, ?_⟩
  · refine rustParseNat_eq_some (by decide) ?_ h1 (by omega)
    intro hc
    rw [hc] at l1
    exact absurd l1 (by decide)
  · refine rustParseNat_eq_some (by decide) ?_ h2 (by omega)
    intro hc
    rw [hc] at l2
    exact absurd l2 (by decide)
  · refine rustParseNat_eq_some (by decide) ?_ h3 (by omega)
    intro hc
    rw [hc] at l3
    exact absurd l3 (by decide)

/-- C8 witness: on the all-ASCII sample header the three captured groups
parse to 2024, 3 and 7. -/
theorem c8_capture_parse_ascii_witness :
    rustParseNat i32Max [50, 48, 50, 52] = some 2024 ∧
    rustParseNat u32Max [48, 51] = some 3 ∧
    rustParseNat u32Max [48, 55] = some 7 := by
  have h := c8_capture_parse_ascii sampleContent 0 [50, 48, 50, 52]
    [48, 51] [48, 55] (by decide) (by decide) (by decide) (by decide)
  exact h

/-- C10: a file whose first 30 bytes match the header pattern but encode the
out-of-range date 2024-13-32 makes classification panic
(`NaiveDate::from_ymd` asserts validity) instead of returning a record, a
skip, or an I/O error; in the step loop this unwinds the background task
(`panicked`) rather than producing a reported step error. -/
theorem c10_invalid_date_panics :
    classify invalidDateContent = .panic ∧
    sampleUnrotate.stepLoop ⟨[(samplePathB, invalidDateContent)], []⟩
      [samplePathB] =
      (⟨[(samplePathB, invalidDateContent)], []⟩, .panicked) := by
  constructor
  · decide
  · decide

/-! ## Store lemmas -/

theorem create_dir_all_files (w : World) (p : List String) :
    (w.create_dir_all p).files = w.files := by
  unfold World.create_dir_all
  split <;> rfl

theorem mem_create_dir_all (w : World) (p : List String) :
    p ∈ (w.create_dir_all p).dirs := by
  unfold World.create_dir_all
  split
  · assumption
  · exact List.mem_cons_self _ _

theorem create_dir_all_of_mem {w : World} {p : List String}
    (h : p ∈ w.dirs) : w.create_dir_all p = w := by
  unfold World.create_dir_all
  rw [if_pos h]

theorem lookupFile_create_dir_all (w : World) (p q : List String) :
    (w.create_dir_all p).lookupFile q = w.lookupFile q := by
  unfold World.lookupFile
  rw [create_dir_all_files]

theorem lookupFile_isSome_iff {w : World} {p : List String} :
    (w.lookupFile p).isSome = true ↔ p ∈ w.files.map Prod.fst := by
  simp only [World.lookupFile, Option.isSome_map', List.find?_isSome,
    decide_eq_true_eq, List.mem_map]

/-- Exhaustive behavior of `create_link`: destination already present
(`AlreadyExists` mapped to `Ok`), fresh link created, or source missing. -/
theorem create_link_cases (c : UnrotateCollection) (w : World)
    (lf : VRCLogfile) :
    (c.linkDest lf ∈ w.files.map Prod.fst ∧
      c.create_link w lf =
        (w.create_dir_all (c.partition_folder_path lf.date), .ok ())) ∨
    (c.linkDest lf ∉ w.files.map Prod.fst ∧ ∃ content,
      w.lookupFile lf.path = some content ∧
      c.create_link w lf =
        ({ files := (c.linkDest lf, content) :: w.files,
           dirs := (w.create_dir_all (c.partition_folder_path lf.date)).dirs },
         .ok ())) ∨
    (c.linkDest lf ∉ w.files.map Prod.fst ∧
      w.lookupFile lf.path = none ∧
      c.create_link w lf =
        (w.create_dir_all (c.partition_folder_path lf.date),
         .error .notFound)) := by
  by_cases hdst : c.linkDest lf ∈ w.files.map Prod.fst
  · left
    refine ⟨hdst, ?_⟩
    have hsome : ((w.create_dir_all
        (c.partition_folder_path lf.date)).lookupFile (c.linkDest lf)).isSome
        = true := by
      rw [lookupFile_create_dir_all, lookupFile_isSome_iff]
      exact hdst
    unfold UnrotateCollection.create_link World.hard_link
    dsimp only
    rw [show (c.partition_folder_path lf.date ++ [lf.path.getLastD ""]) =
      c.linkDest lf from rfl, if_pos hsome]
  · have hnone : ((w.create_dir_all
        (c.partition_folder_path lf.date)).lookupFile (c.linkDest lf)).isSome
        = false := by
      rw [lookupFile_create_dir_all]
      rw [Bool.eq_false_iff]
      intro hc
      exact hdst (lookupFile_isSome_iff.mp hc)
    cases hsrc : w.lookupFile lf.path with
    | some content =>
      right; left
      refine ⟨hdst, content, rfl, ?_⟩
      unfold UnrotateCollection.create_link World.hard_link
      dsimp only
      rw [show (c.partition_folder_path lf.date ++ [lf.path.getLastD ""]) =
        c.linkDest lf from rfl, if_neg (by rw [hnone]; exact Bool.false_ne_true),
        lookupFile_create_dir_all, hsrc, create_dir_all_files]
    | none =>
      right; right
      refine ⟨hdst, rfl, ?_⟩
      unfold UnrotateCollection.create_link World.hard_link
      dsimp only
      rw [show (c.partition_folder_path lf.date ++ [lf.path.getLastD ""]) =
        c.linkDest lf from rfl, if_neg (by rw [hnone]; exact Bool.false_ne_true),
        lookupFile_create_dir_all, hsrc]

/-- If the destination is already linked and the partition directory exists,
`create_link` is a complete no-op returning `Ok`. -/
theorem create_link_of_mem {c : UnrotateCollection} {lf : VRCLogfile}
    {w : World} (hmem : c.linkDest lf ∈ w.files.map Prod.fst)
    (hdir : c.partition_folder_path lf.date ∈ w.dirs) :
    c.create_link w lf = (w, .ok ()) := by
  rcases create_link_cases c w lf with ⟨_, heq⟩ | ⟨hnm, _, _, _⟩ | ⟨hnm, _, _⟩
  · rw [heq, create_dir_all_of_mem hdir]
  · exact absurd hmem hnm
  · exact absurd hmem hnm

/-- C2: linking the same dated log record twice in succession leaves exactly
one destination entry, and the second call is a no-op returning `Ok` (thanks
to `create_link` mapping a hard-link `AlreadyExists` failure to `Ok`). -/
theorem c2_create_link_idempotent (c : UnrotateCollection) (w w1 : World)
    (lf : VRCLogfile)
    (hcount : (w.files.map Prod.fst).count (c.linkDest lf) ≤ 1)
    (hok : c.create_link w lf = (w1, .ok ())) :
    (w1.files.map Prod.fst).count (c.linkDest lf) = 1 ∧
    c.create_link w1 lf = (w1, .ok ()) := by
  rcases create_link_cases c w lf with ⟨hmem, heq⟩ |
    ⟨hmem, content, hsrc, heq⟩ | ⟨hmem, hsrc, heq⟩
  · have hw : w1 = w.create_dir_all (c.partition_folder_path lf.date) := by
      have := hok.symm.trans heq
      exact congrArg Prod.fst this
    have hfiles : w1.files = w.files := by
      rw [hw, create_dir_all_files]
    have hpos : 0 < (w.files.map Prod.fst).count (c.linkDest lf) :=
      List.count_pos_iff.mpr hmem
    constructor
    · rw [hfiles]
      omega
    · apply create_link_of_mem
      · rw [hfiles]
        exact hmem
      · rw [hw]
        exact mem_create_dir_all _ _
  · have hw : w1 = World.mk ((c.linkDest lf, content) :: w.files)
        (w.create_dir_all (c.partition_folder_path lf.date)).dirs := by
      have := hok.symm.trans heq
      exact congrArg Prod.fst this
    have hzero : (w.files.map Prod.fst).count (c.linkDest lf) = 0 :=
      List.count_eq_zero.mpr hmem
    constructor
    · rw [hw]
      simp only [List.map_cons, List.count_cons_self]
      omega
    · apply create_link_of_mem
      · rw [hw]
        exact List.mem_cons_self _ _
      · rw [hw]
        exact mem_create_dir_all _ _
  · rw [hok] at heq
    have := congrArg Prod.snd heq
    simp at this

/-- C2 witness: linking the sample record into the fresh sample world, then
linking it again, leaves one destination entry and returns `Ok` twice. -/
theorem c2_create_link_idempotent_witness :
    ((((sampleUnrotate.collection.create_link sampleWorld
        ⟨samplePathA, ⟨2024, 3, 7⟩⟩).1).files.map Prod.fst).count
      (sampleUnrotate.collection.linkDest ⟨samplePathA, ⟨2024, 3, 7⟩⟩) = 1) ∧
    sampleUnrotate.collection.create_link
      (sampleUnrotate.collection.create_link sampleWorld
        ⟨samplePathA, ⟨2024, 3, 7⟩⟩).1 ⟨samplePathA, ⟨2024, 3, 7⟩⟩ =
      ((sampleUnrotate.collection.create_link sampleWorld
        ⟨samplePathA, ⟨2024, 3, 7⟩⟩).1, .ok ()) := by
  have h := c2_create_link_idempotent sampleUnrotate.collection sampleWorld
    (sampleUnrotate.collection.create_link sampleWorld
      ⟨samplePathA, ⟨2024, 3, 7⟩⟩).1 ⟨samplePathA, ⟨2024, 3, 7⟩⟩
    (by decide) (by decide)
  exact h

/-! ## Scanner lemmas -/

/-- One raw directory read fully succeeded: the entry itself and its file
type were both obtained. -/
def entryReadOk (r : Except String DirEntry) : Prop :=
  match r with
  | .error _ => False
  | .ok de => ∃ ft, de.ftype = .ok ft

/-- The error message of a failed raw directory read, if any. -/
def entryReadErr (r : Except String DirEntry) : Option String :=
  match r with
  | .error e => some e
  | .ok de =>
    match de.ftype with
    | .error e => some e
    | .ok _ => none

theorem scanEntry_cases (v : LocalLowVRChat) (r : Except String DirEntry) :
    (entryReadOk r ∧
      (v.scanEntry r = none ∨ ∃ pth, v.scanEntry r = some (.ok pth))) ∨
    (¬ entryReadOk r ∧ ∃ e, entryReadErr r = some e ∧
      v.scanEntry r = some (.error e)) := by
  cases r with
  | error e =>
    right
    exact ⟨fun h => h, e, rfl, rfl⟩
  | ok de =>
    cases hft : de.ftype with
    | error e =>
      right
      refine ⟨?_, e, ?_, ?_⟩
      · rintro ⟨ft, hc⟩
        rw [hft] at hc
        exact Except.noConfusion hc
      · simp [entryReadErr, hft]
      · simp [LocalLowVRChat.scanEntry, hft]
    | ok ft =>
      left
      refine ⟨⟨ft, hft⟩, ?_⟩
      simp only [LocalLowVRChat.scanEntry, hft]
      by_cases hf : ft = FileType.file
      · rw [if_pos hf]
        by_cases hn : isLogfileName de.name
        · exact Or.inr ⟨_, by rw [if_pos hn]⟩
        · exact Or.inl (by rw [if_neg hn])
      · exact Or.inl (by rw [if_neg hf])

theorem collectResults_map_ok {ε α : Type} (l : List α) :
    collectResults (l.map (.ok : α → Except ε α)) = .ok l := by
  induction l with
  | nil => rfl
  | cons a l ih =>
    simp only [List.map_cons, collectResults, ih, Except.map]

theorem c9_ok_of_all_ok (v : LocalLowVRChat)
    (entries : List (Except String DirEntry))
    (h : ∀ r ∈ entries, entryReadOk r) :
    ∃ out, v.list_logfile_paths entries = .ok out := by
  induction entries with
  | nil => exact ⟨[], rfl⟩
  | cons r rest ih =>
    obtain ⟨out, hout⟩ := ih fun x hx => h x (List.mem_cons_of_mem _ hx)
    rcases scanEntry_cases v r with ⟨_, hnone | ⟨pth, hsome⟩⟩ | ⟨hbad, _⟩
    · refine ⟨out, ?_⟩
      unfold LocalLowVRChat.list_logfile_paths at hout ⊢
      rw [List.filterMap_cons, hnone]
      exact hout
    · refine ⟨pth :: out, ?_⟩
      unfold LocalLowVRChat.list_logfile_paths at hout ⊢
      rw [List.filterMap_cons, hsome]
      simp only [collectResults, hout, Except.map]
    · exact absurd (h r (List.mem_cons_self _ _)) hbad

theorem c9_error_of_bad (v : LocalLowVRChat)
    (pre : List (Except String DirEntry)) (bad : Except String DirEntry)
    (post : List (Except String DirEntry)) (e : String)
    (hpre : ∀ r ∈ pre, entryReadOk r) (hbad : entryReadErr bad = some e) :
    v.list_logfile_paths (pre ++ bad :: post) = .error e := by
  induction pre with
  | nil =>
    rcases scanEntry_cases v bad with ⟨hok, _⟩ | ⟨_, e', he', hscan⟩
    · cases bad with
      | error e2 =>
        unfold LocalLowVRChat.list_logfile_paths
        rw [List.nil_append, List.filterMap_cons]
        have : v.scanEntry (.error e2) = some (.error e2) := rfl
        rw [this]
        have he : e2 = e := by
          have : entryReadErr (Except.error e2 : Except String DirEntry)
              = some e2 := rfl
          rw [this] at hbad
          exact (Option.some.injEq _ _).mp hbad
        rw [he]
        rfl
      | ok de =>
        obtain ⟨ft, hft⟩ := hok
        have : entryReadErr (.ok de) = none := by
          simp [entryReadErr, hft]
        rw [this] at hbad
        exact Option.noConfusion hbad
    · have he : e' = e := by
        rw [he'] at hbad
        exact (Option.some.injEq _ _).mp hbad
      unfold LocalLowVRChat.list_logfile_paths
      rw [List.nil_append, List.filterMap_cons, hscan, he]
      rfl
  | cons r pre ih =>
    have hrec := ih fun x hx => hpre x (List.mem_cons_of_mem _ hx)
    rcases scanEntry_cases v r with ⟨_, hnone | ⟨pth, hsome⟩⟩ | ⟨hb, _⟩
    · unfold LocalLowVRChat.list_logfile_paths at hrec ⊢
      rw [List.cons_append, List.filterMap_cons, hnone]
      exact hrec
    · unfold LocalLowVRChat.list_logfile_paths at hrec ⊢
      rw [List.cons_append, List.filterMap_cons, hsome]
      simp only [collectResults, hrec, Except.map]
    · exact absurd (hpre r (List.mem_cons_self _ _)) hb

theorem c9_all_ok_of_ok (v : LocalLowVRChat) :
    ∀ (entries : List (Except String DirEntry)) (out : List (List String)),
      v.list_logfile_paths entries = .ok out → ∀ r ∈ entries, entryReadOk r := by
  intro entries
  induction entries with
  | nil =>
    intro out _ r hr
    exact absurd hr (List.not_mem_nil r)
  | cons r rest ih =>
    intro out hout x hx
    rcases scanEntry_cases v r with ⟨hok, hnone | ⟨pth, hsome⟩⟩ |
      ⟨hbad, e, herr, hscan⟩
    · rcases List.mem_cons.mp hx with rfl | hx2
      · exact hok
      · refine ih out ?_ x hx2
        unfold LocalLowVRChat.list_logfile_paths at hout ⊢
        rw [List.filterMap_cons, hnone] at hout
        exact hout
    · unfold LocalLowVRChat.list_logfile_paths at hout
      rw [List.filterMap_cons, hsome] at hout
      have hmap : collectResults
          (Except.ok pth :: List.filterMap v.scanEntry rest) =
          (collectResults (List.filterMap v.scanEntry rest)).map
            (pth :: ·) := rfl
      rw [hmap] at hout
      have hex : ∃ out2, collectResults (List.filterMap v.scanEntry rest)
          = .ok out2 := by
        cases hc : collectResults (List.filterMap v.scanEntry rest) with
        | ok o => exact ⟨o, rfl⟩
        | error e2 =>
          rw [hc] at hout
          exact Except.noConfusion hout
      obtain ⟨out2, hout2⟩ := hex
      rcases List.mem_cons.mp hx with rfl | hx2
      · exact hok
      · exact ih out2 hout2 x hx2
    · unfold LocalLowVRChat.list_logfile_paths at hout
      rw [List.filterMap_cons, hscan] at hout
      exact Except.noConfusion hout

/-- C9: an entry-read or file-type error anywhere in the directory listing
fails the whole scan with that error, and the scan succeeds exactly when
every entry was read successfully. -/
theorem c9_scanner_error_propagation (v : LocalLowVRChat) :
    (∀ entries : List (Except String DirEntry),
      (∃ out, v.list_logfile_paths entries = .ok out) ↔
        ∀ r ∈ entries, entryReadOk r) ∧
    (∀ (pre : List (Except String DirEntry)) (bad : Except String DirEntry)
      (post : List (Except String DirEntry)) (e : String),
      (∀ r ∈ pre, entryReadOk r) → entryReadErr bad = some e →
      v.list_logfile_paths (pre ++ bad :: post) = .error e) := by
  constructor
  · intro entries
    constructor
    · intro hex
      obtain ⟨out, hout⟩ := hex
      exact c9_all_ok_of_ok v entries out hout
    · exact c9_ok_of_all_ok v entries
  · exact c9_error_of_bad v

/-! ## Filename-filter lemmas -/

theorem matchLits_eq_some {ls cs rest : List Char} :
    matchLits ls cs = some rest ↔ cs = ls ++ rest := by
  induction ls generalizing cs with
  | nil => simp [matchLits]
  | cons l ls ih =>
    cases cs with
    | nil => simp [matchLits]
    | cons c cs =>
      simp only [matchLits, List.cons_append, List.cons.injEq]
      by_cases hc : c = l
      · rw [if_pos hc, ih]
        simp [hc]
      · rw [if_neg hc]
        simp [hc]

theorem digit2_eq_some {cs rest : List Char} :
    digit2 cs = some rest ↔
      ∃ a b, isNdChar a = true ∧ isNdChar b = true ∧ cs = a :: b :: rest := by
  cases cs with
  | nil => simp [digit2]
  | cons a cs =>
    cases cs with
    | nil => simp [digit2]
    | cons b cs =>
      simp only [digit2]
      by_cases h : (isNdChar a && isNdChar b) = true
      · rw [if_pos h]
        rw [Bool.and_eq_true] at h
        constructor
        · intro hc
          exact ⟨a, b, h.1, h.2, by rw [(Option.some.injEq _ _).mp hc]⟩
        · rintro ⟨a2, b2, _, _, heq⟩
          simp only [List.cons.injEq] at heq
          rw [heq.2.2]
      · rw [if_neg h]
        rw [Bool.and_eq_true] at h
        constructor
        · intro hc
          exact Option.noConfusion hc
        · rintro ⟨a2, b2, hd1, hd2, heq⟩
          simp only [List.cons.injEq] at heq
          obtain ⟨rfl, rfl, _⟩ := heq
          exact absurd ⟨hd1, hd2⟩ h

/-- The filename filter holds exactly of the 23-character strings
`output_log_` + two Unicode decimal digits + `-` + two + `-` + two +
`.txt`. -/
theorem isLogfileName_iff {s : String} :
    isLogfileName s = true ↔ ∃ a b c d e f : Char,
      (isNdChar a ∧ isNdChar b ∧ isNdChar c ∧ isNdChar d ∧ isNdChar e ∧
        isNdChar f) ∧
      s.toList = ['o','u','t','p','u','t','_','l','o','g','_', a, b, '-',
        c, d, '-', e, f, '.', 't', 'x', 't'] := by
  simp only [isLogfileName, decide_eq_true_eq, Option.bind_eq_some,
    matchLits_eq_some, digit2_eq_some, List.cons_append, List.nil_append]
  constructor
  · rintro ⟨cs1, h1, cs2, ⟨a, b, ha, hb, h2⟩, cs3, h3, cs4,
      ⟨c, d, hc, hd, h4⟩, cs5, h5, cs6, ⟨e, f, he, hf, h6⟩, h7⟩
    subst h2 h3 h4 h5 h6 h7
    exact ⟨a, b, c, d, e, f, ⟨ha, hb, hc, hd, he, hf⟩, h1⟩
  · rintro ⟨a, b, c, d, e, f, ⟨ha, hb, hc, hd, he, hf⟩, heq⟩
    exact ⟨_, heq, _, ⟨a, b, ha, hb, rfl⟩, _, rfl, _, ⟨c, d, hc, hd, rfl⟩,
      _, rfl, _, ⟨e, f, he, hf, rfl⟩, rfl⟩

/-- On a fully readable directory, the scan returns exactly the regular-file
entries with matching names, as full paths. -/
theorem list_logfile_paths_ok_entries (v : LocalLowVRChat)
    (l : List (String × FileType)) :
    v.list_logfile_paths (l.map fun nf => .ok ⟨nf.1, .ok nf.2⟩) =
      .ok (l.filterMap fun nf =>
        if nf.2 = FileType.file ∧ isLogfileName nf.1 = true
        then some (v.vrchat_path ++ [nf.1]) else none) := by
  induction l with
  | nil => rfl
  | cons nf l ih =>
    rcases nf with ⟨name, ft⟩
    unfold LocalLowVRChat.list_logfile_paths at ih ⊢
    rw [List.map_cons, List.filterMap_cons, List.filterMap_cons]
    by_cases hf : ft = FileType.file
    · by_cases hn : isLogfileName name = true
      · have hscan : v.scanEntry (.ok ⟨name, .ok ft⟩) =
            some (.ok (v.vrchat_path ++ [name])) := by
          simp [LocalLowVRChat.scanEntry, hf, hn]
        rw [hscan, if_pos ⟨hf, hn⟩]
        simp only [collectResults, ih, Except.map]
      · have hscan : v.scanEntry (.ok ⟨name, .ok ft⟩) = none := by
          simp [LocalLowVRChat.scanEntry, hf, hn]
        rw [hscan, if_neg fun hcon => hn hcon.2]
        exact ih
    · have hscan : v.scanEntry (.ok ⟨name, .ok ft⟩) = none := by
        simp [LocalLowVRChat.scanEntry, hf]
      rw [hscan, if_neg fun hcon => hf hcon.1]
      exact ih

/-- C3 (counterexample to the claim as stated): the regular file named
`output_log_２4-03-07.txt` (first digit the fullwidth ２, U+FF12) is selected
by the program — the regex crate's Unicode-default `\d` accepts ２ — although
the name is not of the ASCII-digit shape `output_log_NN-NN-NN.txt`. -/
theorem c3_counterexample_unicode_name :
    (∃ out, LocalLowVRChat.list_logfile_paths ⟨["VRChat"]⟩
        ([(wideLogName, FileType.file)].map fun nf =>
          .ok ⟨nf.1, .ok nf.2⟩) = .ok out ∧
      ["VRChat"] ++ [wideLogName] ∈ out) ∧
    ¬ ∃ a b c d e f : Char,
      (a.isDigit ∧ b.isDigit ∧ c.isDigit ∧ d.isDigit ∧ e.isDigit ∧
        f.isDigit) ∧
      wideLogName.toList = ['o','u','t','p','u','t','_','l','o','g','_',
        a, b, '-', c, d, '-', e, f, '.', 't', 'x', 't'] := by
  constructor
  · exact ⟨[["VRChat"] ++ [wideLogName]], by decide, by decide⟩
  · rintro ⟨a, b, c, d, e, f, hd, heq⟩
    have hlist : wideLogName.toList = ['o','u','t','p','u','t','_','l','o',
        'g','_', '２', '4', '-', '0', '3', '-', '0', '7', '.', 't', 'x',
        't'] := by decide
    rw [hlist] at heq
    have ha : ('２' : Char) = a := congrArg (fun l => l.getD 11 ' ') heq
    have hdig : a.isDigit = true := hd.1
    rw [← ha] at hdig
    exact absurd hdig (by decide)

/-- C3 (amended): over any fully readable directory listing, the path of an
entry named `s` is selected as a candidate iff `s` is exactly
`output_log_NN-NN-NN.txt` with `N` any **Unicode decimal digit** (the
`\d` class in the regex crate's default Unicode mode; in particular every
ASCII-digit name of this shape), case-sensitive, whole-string match, and the
entry is a regular file; directories and symbolic links are excluded even
with matching names. -/
theorem c3_scanner_filename_filter (v : LocalLowVRChat)
    (l : List (String × FileType)) (s : String) :
    (∃ out, v.list_logfile_paths (l.map fun nf => .ok ⟨nf.1, .ok nf.2⟩) =
        .ok out ∧ v.vrchat_path ++ [s] ∈ out) ↔
    ((s, FileType.file) ∈ l ∧ ∃ a b c d e f : Char,
      (isNdChar a ∧ isNdChar b ∧ isNdChar c ∧ isNdChar d ∧ isNdChar e ∧
        isNdChar f) ∧
      s.toList = ['o','u','t','p','u','t','_','l','o','g','_', a, b, '-',
        c, d, '-', e, f, '.', 't', 'x', 't']) := by
  rw [← isLogfileName_iff]
  constructor
  · rintro ⟨out, hout, hmem⟩
    rw [list_logfile_paths_ok_entries] at hout
    obtain rfl : _ = out := (Except.ok.injEq _ _).mp hout
    obtain ⟨nf, hnf, hcond⟩ := List.mem_filterMap.mp hmem
    by_cases hc : nf.2 = FileType.file ∧ isLogfileName nf.1 = true
    · rw [if_pos hc] at hcond
      have hname : nf.1 = s := by
        have h1 := (Option.some.injEq _ _).mp hcond
        have h2 := List.append_cancel_left h1
        simpa using h2
      rcases nf with ⟨n1, n2⟩
      have hn1 : n1 = s := hname
      have hn2 : n2 = FileType.file := hc.1
      subst hn1
      subst hn2
      exact ⟨hnf, hc.2⟩
    · rw [if_neg hc] at hcond
      exact Option.noConfusion hcond
  · rintro ⟨hmem, hname⟩
    refine ⟨_, list_logfile_paths_ok_entries v l, ?_⟩
    exact List.mem_filterMap.mpr ⟨(s, FileType.file), hmem,
      by rw [if_pos ⟨rfl, hname⟩]⟩

/-- C3 witness: a regular file named `output_log_24-03-07.txt` is selected;
the name decomposes into the literal pattern with digits 2,4,0,3,0,7. -/
theorem c3_scanner_filename_filter_witness :
    ∃ out, LocalLowVRChat.list_logfile_paths ⟨["VRChat"]⟩
        ([("output_log_24-03-07.txt", FileType.file)].map
          fun nf => .ok ⟨nf.1, .ok nf.2⟩) = .ok out ∧
      ["VRChat"] ++ ["output_log_24-03-07.txt"] ∈ out := by
  apply (c3_scanner_filename_filter ⟨["VRChat"]⟩
    [("output_log_24-03-07.txt", FileType.file)]
    "output_log_24-03-07.txt").mpr
  refine ⟨by decide, '2', '4', '0', '3', '0', '7', by decide, by decide⟩

/-- C9 witness: an unreadable entry between two good ones fails the whole
scan with that entry's error. -/
theorem c9_scanner_error_propagation_witness :
    LocalLowVRChat.list_logfile_paths ⟨["VRChat"]⟩
      ([.ok ⟨"output_log_24-03-07.txt", .ok .file⟩] ++ .error "boom" ::
        [.ok ⟨"output_log_24-03-08.txt", .ok .file⟩]) = .error "boom" := by
  apply (c9_scanner_error_propagation ⟨["VRChat"]⟩).2
  · intro r hr
    rw [List.mem_singleton] at hr
    subst hr
    exact ⟨.file, rfl⟩
  · rfl

/-! ## Partition-path formatting lemmas -/

theorem decDigitsAux_length {fuel : Nat} :
    ∀ {n k : Nat}, n < 10 ^ k → (decDigitsAux fuel n).length ≤ k := by
  induction fuel with
  | zero =>
    intro n k _
    simp [decDigitsAux]
  | succ fuel ih =>
    intro n k h
    unfold decDigitsAux
    by_cases h0 : n = 0
    · rw [if_pos (by simpa using h0)]
      simp
    · rw [if_neg (by simpa using h0)]
      have hk : 1 ≤ k := by
        by_contra hc
        have hk0 : k = 0 := by omega
        subst hk0
        simp at h
        omega
      have hdiv : n / 10 < 10 ^ (k - 1) := by
        have hsplit : 10 ^ k = 10 ^ (k - 1) * 10 := by
          rw [← pow_succ]
          congr 1
          omega
        rw [hsplit] at h
        omega
      have hlen := ih hdiv
      rw [List.length_append]
      simp only [List.length_cons, List.length_nil]
      omega

theorem decDigits_length_le {n k : Nat} (h : n < 10 ^ k) (hk : 1 ≤ k) :
    (decDigits n).length ≤ k := by
  unfold decDigits
  by_cases h0 : n = 0
  · rw [if_pos (by simpa using h0)]
    simpa using hk
  · rw [if_neg (by simpa using h0)]
    exact decDigitsAux_length h

theorem decDigits_length_pos (n : Nat) : 1 ≤ (decDigits n).length := by
  unfold decDigits
  by_cases h0 : n = 0
  · rw [if_pos (by simpa using h0)]
    simp
  · rw [if_neg (by simpa using h0)]
    cases n with
    | zero => exact absurd rfl h0
    | succ n2 =>
      unfold decDigitsAux
      rw [if_neg (by simp)]
      simp

theorem fmtZeroPad_length {w n : Nat} (h : (decDigits n).length ≤ w) :
    (fmtZeroPad w n).length = w := by
  unfold fmtZeroPad
  show (List.replicate (w - ((decDigits n).map digitCharOf).length) '0' ++
    (decDigits n).map digitCharOf).length = w
  rw [List.length_append, List.length_replicate, List.length_map]
  omega

/-- C4: the destination directory is always
`collection_root / YYYY-MM / DD` — the year zero-padded to 4 characters and
month and day to 2 — and for date 2024-03-07 under root `C` it is always
`C/2024-03/07`, independent of the invocation. -/
theorem c4_partition_path_deterministic (C : List String) (y m d : Nat)
    (hy : y ≤ 9999) (hm : m ≤ 99) (hd : d ≤ 99) :
    UnrotateCollection.partition_folder_path ⟨C⟩ ⟨y, m, d⟩ =
      C ++ [fmtZeroPad 4 y ++ "-" ++ fmtZeroPad 2 m, fmtZeroPad 2 d] ∧
    (fmtZeroPad 4 y).length = 4 ∧
    (fmtZeroPad 2 m).length = 2 ∧
    (fmtZeroPad 2 d).length = 2 ∧
    UnrotateCollection.partition_folder_path ⟨C⟩ ⟨2024, 3, 7⟩ =
      C ++ ["2024-03", "07"] := by
  refine ⟨rfl, ?_, ?_, ?_, ?_⟩
  · exact fmtZeroPad_length (decDigits_length_le (by omega) (by omega))
  · exact fmtZeroPad_length (decDigits_length_le (by omega) (by omega))
  · exact fmtZeroPad_length (decDigits_length_le (by omega) (by omega))
  · have h1 : fmtZeroPad 4 2024 ++ "-" ++ fmtZeroPad 2 3 = "2024-03" := by
      decide
    have h2 : fmtZeroPad 2 7 = "07" := by decide
    show C ++ [fmtZeroPad 4 2024 ++ "-" ++ fmtZeroPad 2 3, fmtZeroPad 2 7] =
      C ++ ["2024-03", "07"]
    rw [h1, h2]

/-- C4 witness: the concrete instance at root `C` and date 2024-03-07. -/
theorem c4_partition_path_deterministic_witness :
    UnrotateCollection.partition_folder_path ⟨["C"]⟩ ⟨2024, 3, 7⟩ =
      ["C"] ++ [fmtZeroPad 4 2024 ++ "-" ++ fmtZeroPad 2 3,
        fmtZeroPad 2 7] ∧
    (fmtZeroPad 4 2024).length = 4 ∧
    (fmtZeroPad 2 3).length = 2 ∧
    (fmtZeroPad 2 7).length = 2 ∧
    UnrotateCollection.partition_folder_path ⟨["C"]⟩ ⟨2024, 3, 7⟩ =
      ["C"] ++ ["2024-03", "07"] :=
  c4_partition_path_deterministic ["C"] 2024 3 7 (by decide) (by decide)
    (by decide)

/-! ## Step-loop lemmas -/

theorem stepLoop_append_ok (u : Unrotate) :
    ∀ (pre post : List (List String)) (w w1 : World),
      u.stepLoop w pre = (w1, .ok) →
      u.stepLoop w (pre ++ post) = u.stepLoop w1 post := by
  intro pre
  induction pre with
  | nil =>
    intro post w w1 h
    injection h with hw _
    subst hw
    rfl
  | cons p pre ih =>
    intro post w w1 h
    rw [List.cons_append]
    simp only [Unrotate.stepLoop] at h ⊢
    cases hc : classifyPath w p with
    | ioError =>
      simp only [hc] at h
      simp at h
    | panic =>
      simp only [hc] at h
      simp at h
    | noRecord =>
      simp only [hc] at h ⊢
      exact ih post w w1 h
    | record y m d =>
      simp only [hc] at h ⊢
      obtain ⟨w2, res, hcl⟩ :
          ∃ w2 res, u.collection.create_link w ⟨p, ⟨y, m, d⟩⟩ = (w2, res) :=
        ⟨_, _, rfl⟩
      rw [hcl] at h ⊢
      cases res with
      | ok a => exact ih post w2 w1 h
      | error e2 => simp at h

theorem stepLoop_files_mono (u : Unrotate) :
    ∀ (cs : List (List String)) (w : World) (q : List String),
      q ∈ w.files.map Prod.fst →
      q ∈ (u.stepLoop w cs).1.files.map Prod.fst := by
  intro cs
  induction cs with
  | nil =>
    intro w q h
    exact h
  | cons p cs ih =>
    intro w q h
    simp only [Unrotate.stepLoop]
    cases hc : classifyPath w p with
    | ioError => simpa using h
    | panic => simpa using h
    | noRecord => exact ih w q h
    | record y m d =>
      show q ∈ List.map Prod.fst
        (match u.collection.create_link w ⟨p, ⟨y, m, d⟩⟩ with
          | (w1, Except.ok _) => u.stepLoop w1 cs
          | (w1, Except.error e) =>
            (w1, StepOutcome.fail (StepError.linkError p e))).1.files
      obtain ⟨w2, res, hcl⟩ :
          ∃ w2 res, u.collection.create_link w ⟨p, ⟨y, m, d⟩⟩ = (w2, res) :=
        ⟨_, _, rfl⟩
      rw [hcl]
      have hsub : q ∈ w2.files.map Prod.fst := by
        rcases create_link_cases u.collection w ⟨p, ⟨y, m, d⟩⟩ with
          ⟨_, heq⟩ | ⟨_, content, _, heq⟩ | ⟨_, _, heq⟩
        · rw [hcl] at heq
          have hw2 : w2 = w.create_dir_all
              (u.collection.partition_folder_path
                (⟨p, ⟨y, m, d⟩⟩ : VRCLogfile).date) :=
            congrArg Prod.fst heq
          rw [hw2, create_dir_all_files]
          exact h
        · rw [hcl] at heq
          have hw2 : w2 = World.mk
              ((u.collection.linkDest ⟨p, ⟨y, m, d⟩⟩, content) :: w.files)
              (w.create_dir_all (u.collection.partition_folder_path
                (⟨p, ⟨y, m, d⟩⟩ : VRCLogfile).date)).dirs :=
            congrArg Prod.fst heq
          rw [hw2]
          exact List.mem_cons_of_mem _ h
        · rw [hcl] at heq
          have hw2 : w2 = w.create_dir_all
              (u.collection.partition_folder_path
                (⟨p, ⟨y, m, d⟩⟩ : VRCLogfile).date) :=
            congrArg Prod.fst heq
          rw [hw2, create_dir_all_files]
          exact h
      cases res with
      | ok a => exact ih w2 q hsub
      | error e2 => exact hsub

/-- C5: the step is not transactional, but completed work survives failure:
if a prefix of the candidate list ran cleanly (leaving a link `dst` in
place) and the remaining candidates fail with error `e`, then the whole loop
returns exactly that error and `dst` is still present afterwards — prior
links are neither undone nor retried within the step. -/
theorem c5_step_preserves_prior_links (u : Unrotate) (w w1 w2 : World)
    (pre post : List (List String)) (dst : List String) (e : StepError)
    (h1 : u.stepLoop w pre = (w1, .ok))
    (hA : dst ∈ w1.files.map Prod.fst)
    (h2 : u.stepLoop w1 post = (w2, .fail e)) :
    u.stepLoop w (pre ++ post) = (w2, .fail e) ∧
    dst ∈ w2.files.map Prod.fst := by
  constructor
  · rw [stepLoop_append_ok u pre post w w1 h1, h2]
  · have hm := stepLoop_files_mono u post w1 dst hA
    rw [h2] at hm
    exact hm

/-- C5 witness: after candidate A links successfully, candidate B (an absent
file) fails the step with a classify error, and A's link is still present in
the final world. -/
theorem c5_step_preserves_prior_links_witness :
    sampleUnrotate.stepLoop sampleWorld ([samplePathA] ++ [samplePathB]) =
      (sampleLinkedWorld, .fail (.classifyError samplePathB)) ∧
    sampleLinkDest ∈ sampleLinkedWorld.files.map Prod.fst :=
  c5_step_preserves_prior_links sampleUnrotate sampleWorld sampleLinkedWorld
    sampleLinkedWorld [samplePathA] [samplePathB] sampleLinkDest
    (.classifyError samplePathB) (by decide) (by decide) (by decide)

end VRCLog